import Mathlib

/-!
Verification development for the multiscale Bayesian collaborative denoiser
of the Nanairo renderer (`bayesian_collaborative_denoiser.cpp`).

Machine `uint` arithmetic is embedded as `Nat` (truncated subtraction; all
claims are settled on inputs where no wrap-around occurs), and `Float`
(`double`) arithmetic is embedded as exact rational arithmetic over `ℚ`.
Division by zero in `ℚ` is the usual junk value `0`; every place where the
source divides is either guarded by an assertion in the source or proved
nonzero where a claim depends on it.
-/

namespace Nanairo

/-- A pixel position `(x, y)`, mirroring `Index2d`. -/
abbrev Pixel : Type := ℕ × ℕ

/-- Flat pixel index `x + w * y`, the layout used throughout the source. -/
def idx (w : ℕ) (p : Pixel) : ℕ := p.1 + w * p.2

/-- An `N`-channel value (`zisc::ArithArray<Float, N>` / `SpectraArray`). -/
abbrev Vec (N : ℕ) : Type := Fin N → ℚ

/-- Compressed symmetric covariance factors, indexed by the channel pair.
The source stores the upper triangle flat, enumerating pairs `(a, b)` with
`a ≤ b` in lexicographic order; writer (`Parameters::init`) and readers
(`toMatrix`, the empirical means) traverse the same enumeration, so the
flat array is embedded as the function on pairs it represents. -/
abbrev CovM (N : ℕ) : Type := Fin N → Fin N → ℚ

/-- Pointwise update of a table at one flat index. -/
def updFn {M : Type} (f : ℕ → M) (i : ℕ) (v : M) : ℕ → M :=
  fun j => if j = i then v else f j

theorem updFn_same {M : Type} (f : ℕ → M) (i : ℕ) (v : M) : updFn f i v i = v := by
  simp [updFn]

theorem updFn_other {M : Type} (f : ℕ → M) (i j : ℕ) (v : M) (h : j ≠ i) :
    updFn f i v j = f j := by
  simp [updFn, h]

/-- Modelled from the spec: `RenderingTile` (declared in
`NanairoCore/Data/rendering_tile.hpp`, which is not among the provided
sources) is a rectangular pixel range `[begin, end)` in two dimensions,
iterated row-major; `getIndex` is the relative flat index inside the tile. -/
structure RenderingTile where
  b0 : ℕ
  b1 : ℕ
  e0 : ℕ
  e1 : ℕ

namespace RenderingTile

/-- Width of the tile. -/
def w (t : RenderingTile) : ℕ := t.e0 - t.b0

/-- Height of the tile. -/
def hgt (t : RenderingTile) : ℕ := t.e1 - t.b1

/-- Number of pixels of the tile. -/
def numOfPixels (t : RenderingTile) : ℕ := t.w * t.hgt

/-- The pixels of the tile in row-major iteration order. -/
def pixels (t : RenderingTile) : List Pixel :=
  (List.range t.hgt).bind fun dy =>
    (List.range t.w).map fun dx => (t.b0 + dx, t.b1 + dy)

/-- Relative flat index of a pixel within the tile. -/
def getIndex (t : RenderingTile) (p : Pixel) : ℕ :=
  (p.1 - t.b0) + t.w * (p.2 - t.b1)

theorem mem_pixels {t : RenderingTile} {p : Pixel} :
    p ∈ t.pixels ↔ (t.b0 ≤ p.1 ∧ p.1 < t.e0) ∧ (t.b1 ≤ p.2 ∧ p.2 < t.e1) := by
  unfold pixels RenderingTile.w RenderingTile.hgt
  constructor
  · intro hp
    rcases List.mem_bind.1 hp with ⟨dy, hdy, hp⟩
    rcases List.mem_map.1 hp with ⟨dx, hdx, hp⟩
    rw [List.mem_range] at hdy hdx
    have h1 : p.1 = t.b0 + dx := by rw [← hp]
    have h2 : p.2 = t.b1 + dy := by rw [← hp]
    omega
  · rintro ⟨⟨h1, h2⟩, ⟨h3, h4⟩⟩
    refine List.mem_bind.2 ⟨p.2 - t.b1, List.mem_range.2 (by omega), ?_⟩
    refine List.mem_map.2 ⟨p.1 - t.b0, List.mem_range.2 (by omega), ?_⟩
    have e1 : t.b0 + (p.1 - t.b0) = p.1 := by omega
    have e2 : t.b1 + (p.2 - t.b1) = p.2 := by omega
    rw [e1, e2]

theorem w_pos_of_mem {t : RenderingTile} {p : Pixel} (hp : p ∈ t.pixels) : 0 < t.w := by
  rcases mem_pixels.1 hp with ⟨⟨h1, h2⟩, _⟩
  unfold RenderingTile.w
  omega

theorem getIndex_inj {t : RenderingTile} {p q : Pixel}
    (hp : p ∈ t.pixels) (hq : q ∈ t.pixels)
    (h : t.getIndex p = t.getIndex q) : p = q := by
  rcases mem_pixels.1 hp with ⟨⟨hp1, hp2⟩, ⟨hp3, hp4⟩⟩
  rcases mem_pixels.1 hq with ⟨⟨hq1, hq2⟩, ⟨hq3, hq4⟩⟩
  unfold RenderingTile.getIndex at h
  have hw : t.b0 + t.w = t.e0 := by
    have := w_pos_of_mem hp
    unfold RenderingTile.w at *
    omega
  have hxp : p.1 - t.b0 < t.w := by omega
  have hxq : q.1 - t.b0 < t.w := by omega
  have hw0 : 0 < t.w := by omega
  have hmodp : (p.1 - t.b0 + t.w * (p.2 - t.b1)) % t.w = p.1 - t.b0 := by
    rw [Nat.add_mul_mod_self_left, Nat.mod_eq_of_lt hxp]
  have hmodq : (q.1 - t.b0 + t.w * (q.2 - t.b1)) % t.w = q.1 - t.b0 := by
    rw [Nat.add_mul_mod_self_left, Nat.mod_eq_of_lt hxq]
  have hdivp : (p.1 - t.b0 + t.w * (p.2 - t.b1)) / t.w = p.2 - t.b1 := by
    rw [Nat.add_mul_div_left _ _ hw0, Nat.div_eq_of_lt hxp, Nat.zero_add]
  have hdivq : (q.1 - t.b0 + t.w * (q.2 - t.b1)) / t.w = q.2 - t.b1 := by
    rw [Nat.add_mul_div_left _ _ hw0, Nat.div_eq_of_lt hxq, Nat.zero_add]
  rw [h] at hmodp hdivp
  have hx1 : p.1 - t.b0 = q.1 - t.b0 := by rw [← hmodp, hmodq]
  have hx2 : p.2 - t.b1 = q.2 - t.b1 := by rw [← hdivp, hdivq]
  have hpq1 : p.1 = q.1 := by omega
  have hpq2 : p.2 = q.2 := by omega
  exact Prod.ext hpq1 hpq2

theorem pixels_nodup (t : RenderingTile) : t.pixels.Nodup := by
  unfold pixels
  refine List.nodup_bind.2 ⟨?_, ?_⟩
  · intro y _
    refine (List.nodup_range _).map ?_
    intro a b hab
    have : t.b0 + a = t.b0 + b := congrArg Prod.fst hab
    omega
  · refine List.Pairwise.imp_of_mem ?_ (List.pairwise_lt_range _)
    intro y1 y2 _ _ hlt p hp1 hp2
    rcases List.mem_map.1 hp1 with ⟨dx1, _, he1⟩
    rcases List.mem_map.1 hp2 with ⟨dx2, _, he2⟩
    have e1 : p.2 = t.b1 + y1 := by rw [← he1]
    have e2 : p.2 = t.b1 + y2 := by rw [← he2]
    omega

end RenderingTile

/-- The denoiser's configuration fields, read once at construction
(`BayesianCollaborativeDenoiser::initialize`). -/
structure BCDenoiser where
  histogramBins : ℕ
  histogramDistanceThreshold : ℚ
  patchRadius : ℕ
  searchRadius : ℕ
  numOfScales : ℕ

namespace BCDenoiser

/-- `getChunkSize`: chunks have side `3 * search_radius_`. -/
def getChunkSize (den : BCDenoiser) : ℕ := 3 * den.searchRadius

/-- `getNumOfPatchPixels`: `(2 * patch_radius_ + 1)^2`. -/
def getNumOfPatchPixels (den : BCDenoiser) : ℕ := (2 * den.patchRadius + 1) ^ 2

/-- `getNumOfSearchWindowPixels`: `(2 * search_radius_ + 1)^2`. -/
def getNumOfSearchWindowPixels (den : BCDenoiser) : ℕ :=
  (2 * den.searchRadius + 1) ^ 2

/-- `getPatchDimension<kDimension>`: `kDimension * getNumOfPatchPixels()`. -/
def getPatchDimension (den : BCDenoiser) (N : ℕ) : ℕ :=
  N * den.getNumOfPatchPixels

/-- `getChunkResolution`: the image is inset by `patch_radius_` on each side,
then divided into chunks of side `getChunkSize()`, rounding up. -/
def getChunkResolution (den : BCDenoiser) (resolution : Pixel) : Pixel :=
  let r0 := resolution.1 - 2 * den.patchRadius
  let r1 := resolution.2 - 2 * den.patchRadius
  let cs := den.getChunkSize
  (r0 / cs + (if r0 % cs ≠ 0 then 1 else 0),
   r1 / cs + (if r1 % cs ≠ 0 then 1 else 0))

/-- `makePatch`: the square block of side `2*patch_radius_+1` centered on a
pixel. -/
def makePatch (den : BCDenoiser) (c : Pixel) : RenderingTile :=
  ⟨c.1 - den.patchRadius, c.2 - den.patchRadius,
   c.1 + den.patchRadius + 1, c.2 + den.patchRadius + 1⟩

/-- `makeSearchWindow`: the search window around a pixel, clamped so that
every patch centered inside it stays within the image. -/
def makeSearchWindow (den : BCDenoiser) (resolution : Pixel) (c : Pixel) :
    RenderingTile :=
  ⟨max (den.patchRadius + den.searchRadius) c.1 - den.searchRadius,
   max (den.patchRadius + den.searchRadius) c.2 - den.searchRadius,
   min (resolution.1 - den.patchRadius) (c.1 + den.searchRadius + 1),
   min (resolution.2 - den.patchRadius) (c.2 + den.searchRadius + 1)⟩

/-- `makeChunkTile`: the tile of one chunk at one tile position, clamped to
the image inset by `patch_radius_`. -/
def makeChunkTile (den : BCDenoiser) (resolution : Pixel)
    (chunkPosition tilePosition : Pixel) : RenderingTile :=
  let cs := den.getChunkSize
  let g0 := den.patchRadius + cs * chunkPosition.1 +
            den.searchRadius * tilePosition.1
  let g1 := den.patchRadius + cs * chunkPosition.2 +
            den.searchRadius * tilePosition.2
  ⟨min g0 (resolution.1 - den.patchRadius),
   min g1 (resolution.2 - den.patchRadius),
   min (g0 + den.searchRadius) (resolution.1 - den.patchRadius),
   min (g1 + den.searchRadius) (resolution.2 - den.patchRadius)⟩

/-- Modelled from the spec: `getChunkTileOrder` (declared in the class
header, which is not among the provided sources) returns a fixed traversal
order of the nine tile positions `{0,1,2} × {0,1,2}` of a chunk. -/
def getChunkTileOrder : List Pixel :=
  [(0, 0), (1, 0), (2, 0), (0, 1), (1, 1), (2, 1), (0, 2), (1, 2), (2, 2)]

/-- The patch offsets `(patch_number % (2r+1), patch_number / (2r+1))` for
`patch_number < getNumOfPatchPixels()`, in loop order. -/
def patchOffsets (den : BCDenoiser) : List Pixel :=
  (RenderingTile.mk 0 0 (2 * den.patchRadius + 1) (2 * den.patchRadius + 1)).pixels

/-- The source pixel `(neighbor + patch_offset) - patch_radius` addressed by
a patch offset relative to a window pixel. -/
def targetPixel (den : BCDenoiser) (q o : Pixel) : Pixel :=
  (q.1 + o.1 - den.patchRadius, q.2 + o.2 - den.patchRadius)

theorem mem_patchOffsets {den : BCDenoiser} {o : Pixel} :
    o ∈ den.patchOffsets ↔
      o.1 < 2 * den.patchRadius + 1 ∧ o.2 < 2 * den.patchRadius + 1 := by
  unfold patchOffsets
  rw [RenderingTile.mem_pixels]
  dsimp only
  omega

theorem center_mem_patchOffsets (den : BCDenoiser) :
    (den.patchRadius, den.patchRadius) ∈ den.patchOffsets := by
  rw [mem_patchOffsets]
  omega

theorem patchOffsets_nodup (den : BCDenoiser) : den.patchOffsets.Nodup :=
  RenderingTile.pixels_nodup _

end BCDenoiser

section FoldLemmas

variable {M : Type} [AddCommMonoid M]

/-- A guarded accumulating `foldl` is the sum over the filtered list. -/
theorem foldl_guarded_add (l : List Pixel) (c : Pixel → Prop) [DecidablePred c]
    (f : Pixel → M) (a : M) :
    l.foldl (fun acc q => if c q then acc + f q else acc) a =
      a + ((l.filter (fun q => decide (c q))).map f).sum := by
  induction l generalizing a with
  | nil => simp
  | cons q l ih =>
    by_cases hq : c q
    · simp only [List.foldl_cons, hq, if_true, List.filter_cons, List.map_cons]
      rw [ih]
      simp [add_assoc]
    · simp only [List.foldl_cons, hq, if_false, List.filter_cons]
      rw [ih]
      simp [hq]

/-- Membership in a mask built by a guarded `insert` fold. -/
theorem mem_foldl_insert (l : List Pixel) (c : Pixel → Prop) [DecidablePred c]
    (f : Pixel → ℕ) (s : Finset ℕ) (i : ℕ) :
    i ∈ l.foldl (fun s q => if c q then insert (f q) s else s) s ↔
      i ∈ s ∨ ∃ q ∈ l, c q ∧ f q = i := by
  induction l generalizing s with
  | nil => simp
  | cons q l ih =>
    by_cases hq : c q
    · simp only [List.foldl_cons, hq, if_true]
      rw [ih]
      simp only [Finset.mem_insert, List.mem_cons]
      constructor
      · rintro (⟨h | h⟩ | ⟨r, hr, hcr, hfr⟩)
        · exact Or.inr ⟨q, Or.inl rfl, hq, h.symm⟩
        · exact Or.inl h
        · exact Or.inr ⟨r, Or.inr hr, hcr, hfr⟩
      · rintro (h | ⟨r, (rfl | hr), hcr, hfr⟩)
        · exact Or.inl (Or.inr h)
        · exact Or.inl (Or.inl hfr.symm)
        · exact Or.inr ⟨r, hr, hcr, hfr⟩
    · simp only [List.foldl_cons, hq, if_false]
      rw [ih]
      simp only [List.mem_cons]
      constructor
      · rintro (h | ⟨r, hr, hcr, hfr⟩)
        · exact Or.inl h
        · exact Or.inr ⟨r, Or.inr hr, hcr, hfr⟩
      · rintro (h | ⟨r, (rfl | hr), hcr, hfr⟩)
        · exact Or.inl h
        · exact absurd hcr (by simp [hq])
        · exact Or.inr ⟨r, hr, hcr, hfr⟩

end FoldLemmas

/-- Modelled from the spec: `SampleStatistics`
(`NanairoCore/Sampling/sample_statistics.hpp`, not among the provided
sources) owns, per pixel, the accumulated sample sum, sum-of-squares,
cross-product accumulators and per-bin histogram counts produced by the
renderer. The accumulators are represented by the family of accumulated
samples itself; the read accessors below expose the sums the source reads. -/
structure SampleStatistics (N : ℕ) where
  resolution : Pixel
  /-- The accumulated samples: pixel index → sample number → channel value. -/
  sample : ℕ → ℕ → Vec N
  /-- Histogram counts, pixel-major: flat index `histogramBins * pixel + bin`. -/
  histogramTable : ℕ → Vec N

namespace SampleStatistics

/-- Accumulated sample sum of channel `a` at pixel `p` over `n` samples
(the `sampleTable()` accessor). -/
def sampleSum {N : ℕ} (st : SampleStatistics N) (n p : ℕ) (a : Fin N) : ℚ :=
  ∑ i ∈ Finset.range n, st.sample p i a

/-- Accumulated cross products of channels `a`, `b` at pixel `p` (for
`a = b` this is the `sampleSquaredTable()` accessor, otherwise the
`covarianceFactorTable()` accessor). -/
def crossSum {N : ℕ} (st : SampleStatistics N) (n p : ℕ) (a b : Fin N) : ℚ :=
  ∑ i ∈ Finset.range n, st.sample p i a * st.sample p i b

end SampleStatistics

/-- `Parameters<kDimension>`: the per-scale buffers. The output accumulator
`denoised_value_table_` is threaded through the denoising pass as part of
the pass state (`DState` below). -/
structure Parameters (N : ℕ) where
  resolution : Pixel
  numOfSamples : ℕ
  histogramBins : ℕ
  sampleValue : ℕ → Vec N
  /-- Histogram, flat bin-major layout: index `bin * pixelCount + pixel`. -/
  histogram : ℕ → Vec N
  covarianceFactor : ℕ → CovM N

namespace Parameters

/-- `Parameters::init`: expected value `= k * sum` with `k = 1/cycle`;
covariance factor `= (raw - k*S_a*S_b) * (k*k1)` with `k1 = 1/(cycle-1)`,
where `raw` is the sum-of-squares (diagonal) or cross-product accumulator
(off-diagonal); histogram copied from pixel-major to bin-major layout. -/
def init (N : ℕ) (cycle histogramBins : ℕ) (st : SampleStatistics N) :
    Parameters N :=
  let res := st.resolution
  let cnt := res.1 * res.2
  let k : ℚ := ((cycle : ℚ))⁻¹
  let k1 : ℚ := (((cycle - 1 : ℕ) : ℚ))⁻¹
  { resolution := res
    numOfSamples := cycle
    histogramBins := histogramBins
    sampleValue := fun p a => k * st.sampleSum cycle p a
    covarianceFactor := fun p a b =>
      ((if a = b then st.crossSum cycle p a a else st.crossSum cycle p a b) -
        k * st.sampleSum cycle p a * st.sampleSum cycle p b) * (k * k1)
    histogram := fun i =>
      st.histogramTable (histogramBins * (i % cnt) + i / cnt) }

/-- `Parameters::downscaleAverage`: for every low-resolution flat index in
`[range.1, range.2)`, write the scaled sum of the four corresponding
high-resolution entries (2x2 block, clamped at the border). The low pixel is
recomputed from the *flat index itself* by `% / lowRes.1`. -/
def downscaleAverage {M : Type} [AddCommMonoid M] [Module ℚ M]
    (highRes : Pixel) (highTable : ℕ → M) (lowRes : Pixel)
    (lowTable : ℕ → M) (range : Pixel) : ℕ → M :=
  (List.range (range.2 - range.1)).foldl
    (fun t j =>
      let lowIndex := range.1 + j
      let lowPixel : Pixel := (lowIndex % lowRes.1, lowIndex / lowRes.1)
      let sum : M :=
        ([(0, 0), (1, 0), (0, 1), (1, 1)] : List Pixel).foldl
          (fun s o =>
            s + highTable (min (2 * lowPixel.1 + o.1) (highRes.1 - 1) +
                highRes.1 * min (2 * lowPixel.2 + o.2) (highRes.2 - 1))) 0
      updFn t lowIndex ((4 : ℚ)⁻¹ • sum))
    lowTable

/-- `Parameters::downscaleOf`: halve the resolution, copy `num_of_samples_`
and `histogram_bins_`, box-average `sampleValue` and `covarianceFactor` over
`[0, cnt)`, and box-average the histogram per bin with the bin offset added
to the *range* handed to `downscaleAverage` (the source's thread ranges
partition `[0, cnt)`; their union is modelled as one sequential sweep, the
written indices being pairwise disjoint). -/
def downscaleOf {N : ℕ} (highResP : Parameters N) : Parameters N :=
  let res : Pixel := (highResP.resolution.1 / 2, highResP.resolution.2 / 2)
  let cnt := res.1 * res.2
  { resolution := res
    numOfSamples := highResP.numOfSamples
    histogramBins := highResP.histogramBins
    sampleValue := downscaleAverage highResP.resolution highResP.sampleValue
      res (fun _ => 0) (0, cnt)
    covarianceFactor := downscaleAverage highResP.resolution
      highResP.covarianceFactor res (fun _ => 0) (0, cnt)
    histogram := (List.range highResP.histogramBins).foldl
      (fun t b => downscaleAverage highResP.resolution highResP.histogram
        res t (b * cnt, b * cnt + cnt))
      (fun _ => 0) }

end Parameters

/-- The pyramid of per-scale parameter sets: scale `0` is the finest
(`init`), scale `s+1` is `downscaleOf` applied to scale `s`. -/
def pyramid {N : ℕ} (p0 : Parameters N) (scale : ℕ) : Parameters N :=
  Parameters.downscaleOf^[scale] p0

/-- The list of scale indices whose tiles are actually denoised by
`denoiseMultiscale`: the per-scale loop runs `scale =
num_of_scales_ - (iteration + 1)` and unconditionally `break`s at the end of
its first iteration, so only the first body execution happens. -/
def denoisedScales (numOfScales : ℕ) : List ℕ :=
  if 0 < numOfScales then [numOfScales - 1] else []

/-- The index of the `Parameters` instance the `parameters` pointer holds
when `denoiseMultiscale` reaches `aggregateFinal` (set in the loop's only
executed iteration). -/
def selectedScale (numOfScales : ℕ) : ℕ := numOfScales - 1

namespace PixelMarker

/-- `PixelMarker::PixelMarker` allocates `(w * h) >> kMarkerRepBits` marker
words. Modelled from the spec: the `Marker` word type and `kMarkerRepBits`
are declared in the class header (not among the provided sources); the
constructor's `static_assert` forces `sizeof(Marker) = 2^kMarkerRepBits / 8`
to be a positive byte count, i.e. `3 ≤ kMarkerRepBits`, and one word holds
`2^kMarkerRepBits` bits. -/
def numOfAllocatedMarkers (resolution : Pixel) (kMarkerRepBits : ℕ) : ℕ :=
  (resolution.1 * resolution.2) >>> kMarkerRepBits

/-- The marker-word index accessed by `PixelMarker::mark` and
`PixelMarker::isMarked` for a pixel index: `index >> kMarkerRepBits`. -/
def markerWordIndex (index kMarkerRepBits : ℕ) : ℕ :=
  index >>> kMarkerRepBits

end PixelMarker

/-- `toMatrix`: reconstruct the full symmetric matrix from the compressed
factors (each unordered pair is written to both symmetric entries). -/
def toMatrix {N : ℕ} (factors : CovM N) : Matrix (Fin N) (Fin N) ℚ :=
  Matrix.of fun a b => if a ≤ b then factors a b else factors b a

/-- Modelled from the spec: the matrix inverse used by the shrinkage step
(`Matrix::inverseMatrix()` of the external zisc library), in exact rational
arithmetic: adjugate over determinant, which is the unique inverse whenever
the matrix is invertible. -/
def inverseMatrix {N : ℕ} (A : Matrix (Fin N) (Fin N) ℚ) :
    Matrix (Fin N) (Fin N) ℚ :=
  A.det⁻¹ • A.adjugate

namespace BCDenoiser

/-- `calcHistogramDistance`: the chi-square-like distance contribution of one
histogram-bin pair, together with the number of `num_of_non_both0`
increments it performs (channels whose bin counts sum above `1`). -/
def calcHistogramDistance {N : ℕ} (histogramLhs histogramRhs : Vec N) :
    ℚ × ℕ :=
  (∑ si, if 1 < histogramLhs si + histogramRhs si then
      (histogramLhs si - histogramRhs si) ^ 2 /
        (histogramLhs si + histogramRhs si) else 0,
   (Finset.univ.filter
      (fun si => 1 < histogramLhs si + histogramRhs si)).card)

/-- `calcHistogramPatchDistance`: sum `calcHistogramDistance` over every
histogram bin and every pixel pair at matching offsets of the two patches,
then divide by the total valid-bin count (asserted nonzero in the source). -/
def calcHistogramPatchDistance {N : ℕ} (den : BCDenoiser) (P : Parameters N)
    (centerPixelLhs centerPixelRhs : Pixel) : ℚ :=
  let cnt := P.resolution.1 * P.resolution.2
  let patchLhs := (den.makePatch centerPixelLhs).pixels
  let patchRhs := (den.makePatch centerPixelRhs).pixels
  let acc : ℚ × ℕ :=
    (List.range P.histogramBins).foldl
      (fun acc b =>
        (patchLhs.zip patchRhs).foldl
          (fun acc pq =>
            let indexLhs := idx P.resolution.1 pq.1
            let indexRhs := idx P.resolution.1 pq.2
            let d := calcHistogramDistance (P.histogram (b * cnt + indexLhs))
              (P.histogram (b * cnt + indexRhs))
            (acc.1 + d.1, acc.2 + d.2))
          acc)
      ((0 : ℚ), (0 : ℕ))
  acc.1 / (acc.2 : ℚ)

/-- `selectSimilarPatches`: walk the search window; the distance is `0` for
the main pixel itself, otherwise the patch histogram distance; mark the
window-relative bit iff the distance is at most the configured threshold.
The fixed-capacity `std::bitset` is embedded as the set of set bits. -/
def selectSimilarPatches {N : ℕ} (den : BCDenoiser) (P : Parameters N)
    (mainPixel : Pixel) : Finset ℕ :=
  let win := den.makeSearchWindow P.resolution mainPixel
  win.pixels.foldl
    (fun mask q =>
      let d := if q = mainPixel then 0
               else den.calcHistogramPatchDistance P mainPixel q
      if d ≤ den.histogramDistanceThreshold then insert (win.getIndex q) mask
      else mask)
    ∅

/-- The guarded sum over mask-marked window pixels shared by
`calcEmpiricalMean`, `calcEmpiricalCovarianceMatrix` and
`denoiseOnlyMainPatch`. -/
def sumSimilar {M : Type} [AddCommMonoid M] (den : BCDenoiser) (w : ℕ)
    (win : RenderingTile) (o : Pixel) (mask : Finset ℕ) (table : ℕ → M) : M :=
  win.pixels.foldl
    (fun acc q =>
      if win.getIndex q ∈ mask then acc + table (idx w (den.targetPixel q o))
      else acc)
    0

/-- `calcEmpiricalMean`: sum the table entries at the patch-offset position
of every mask-marked window pixel, then scale by `1 / mask.count()`. -/
def calcEmpiricalMean {M : Type} [AddCommMonoid M] [Module ℚ M]
    (den : BCDenoiser) (w : ℕ) (win : RenderingTile) (o : Pixel)
    (mask : Finset ℕ) (table : ℕ → M) : M :=
  ((mask.card : ℚ))⁻¹ • sumSimilar den w win o mask table

/-- `calcEmpiricalCovarianceMatrix`: accumulate the products of deviations
from the given mean over mask-marked window pixels, scaled by
`1 / (mask.count() - 1)`. -/
def calcEmpiricalCovarianceMatrix {N : ℕ} (den : BCDenoiser) (w : ℕ)
    (win : RenderingTile) (o : Pixel) (mask : Finset ℕ)
    (valueTable : ℕ → Vec N) (valueMean : Vec N) : CovM N :=
  (((mask.card - 1 : ℕ) : ℚ))⁻¹ •
    sumSimilar den w win o mask
      (fun i a b => (valueTable i a - valueMean a) * (valueTable i b - valueMean b))

/-- `calcStagingDenoisedValue`: for every mask-marked window pixel, write
`x - covarianceMean * (expectedCovariance⁻¹ * (x - expectedMean))` into the
staging table at the pixel's patch-offset position. -/
def calcStagingDenoisedValue {N : ℕ} (den : BCDenoiser) (w : ℕ)
    (win : RenderingTile) (o : Pixel) (mask : Finset ℕ)
    (expectedMean : Vec N) (covarianceMean expectedCovariance :
      Matrix (Fin N) (Fin N) ℚ)
    (valueTable stagingValueTable : ℕ → Vec N) : ℕ → Vec N :=
  let invExpectedCovariance := inverseMatrix expectedCovariance
  win.pixels.foldl
    (fun st q =>
      if win.getIndex q ∈ mask then
        let i := idx w (den.targetPixel q o)
        let x := valueTable i
        updFn st i
          (x - covarianceMean.mulVec (invExpectedCovariance.mulVec (x - expectedMean)))
      else st)
    stagingValueTable

end BCDenoiser

/-- The mutable per-pass state threaded through one scale's denoising sweep:
the `denoised_value_table_` accumulator of the scale's `Parameters`, the
staging table, the per-pixel estimate counter, and the pixel marker
(semantically a bit per pixel index; its word-level packing is settled
separately in `PixelMarker`). -/
structure DState (N : ℕ) where
  denoisedValue : ℕ → Vec N
  staging : ℕ → Vec N
  estimatesCounter : ℕ → ℕ
  marker : ℕ → Bool

/-- The cleared pass state: zero accumulators and counters, no marks
(`std::fill(..., 0)` and `pixel_marker.clear()` plus zero-initialising
`resize`). -/
def initialDState (N : ℕ) : DState N :=
  ⟨fun _ => 0, fun _ => 0, fun _ => 0, fun _ => false⟩

namespace BCDenoiser

/-- One window pixel of the accumulation sweep at the end of one patch
offset of `denoiseSelectedPatches`: when the pixel is mask-marked, add the
staged value into `denoisedValue` at its target position, bump its estimate
counter, and mark it when the offset is the patch center. -/
def accumStep {N : ℕ} (den : BCDenoiser) (w : ℕ) (win : RenderingTile)
    (mask : Finset ℕ) (o : Pixel) (s : DState N) (q : Pixel) : DState N :=
  if win.getIndex q ∈ mask then
    let i := idx w (den.targetPixel q o)
    { denoisedValue := updFn s.denoisedValue i (s.denoisedValue i + s.staging i)
      staging := s.staging
      estimatesCounter := updFn s.estimatesCounter i (s.estimatesCounter i + 1)
      marker := if o = (den.patchRadius, den.patchRadius) then
          updFn s.marker i true else s.marker }
  else s

/-- The accumulation sweep over the whole search window. -/
def accumulateOffset {N : ℕ} (den : BCDenoiser) (w : ℕ) (win : RenderingTile)
    (mask : Finset ℕ) (o : Pixel) (s : DState N) : DState N :=
  win.pixels.foldl (accumStep den w win mask o) s

/-- The two-step collaborative shrinkage of one patch offset of
`denoiseSelectedPatches`, as a transformation of the staging table. -/
def selectedStaging {N : ℕ} (den : BCDenoiser) (P : Parameters N)
    (mainPixel : Pixel) (mask : Finset ℕ) (o : Pixel)
    (staging : ℕ → Vec N) : ℕ → Vec N :=
  let w := P.resolution.1
  let win := den.makeSearchWindow P.resolution mainPixel
  let covarianceMean := toMatrix
    (calcEmpiricalMean den w win o mask P.covarianceFactor)
  let expectedMean := calcEmpiricalMean den w win o mask P.sampleValue
  let expectedCovariance := toMatrix
    (calcEmpiricalCovarianceMatrix den w win o mask P.sampleValue expectedMean)
  let expectedCovariance2 := covarianceMean +
    (expectedCovariance - covarianceMean)
  let st1 := calcStagingDenoisedValue den w win o mask expectedMean
    covarianceMean expectedCovariance2 P.sampleValue staging
  let expectedMean2 := calcEmpiricalMean den w win o mask st1
  let expectedCovarianceB := toMatrix
    (calcEmpiricalCovarianceMatrix den w win o mask st1 expectedMean2)
  calcStagingDenoisedValue den w win o mask expectedMean2
    covarianceMean (expectedCovarianceB + covarianceMean) P.sampleValue st1

/-- One patch offset of `denoiseSelectedPatches`: the two-step collaborative
shrinkage into the staging table, followed by the accumulation sweep. -/
def selectedStep {N : ℕ} (den : BCDenoiser) (P : Parameters N)
    (mainPixel : Pixel) (mask : Finset ℕ) (s : DState N) (o : Pixel) :
    DState N :=
  accumulateOffset den P.resolution.1 (den.makeSearchWindow P.resolution mainPixel)
    mask o { s with staging := selectedStaging den P mainPixel mask o s.staging }

/-- `denoiseSelectedPatches`: run the two-step shrinkage and accumulation
for every patch offset. -/
def denoiseSelectedPatches {N : ℕ} (den : BCDenoiser) (P : Parameters N)
    (mainPixel : Pixel) (mask : Finset ℕ) (s : DState N) : DState N :=
  den.patchOffsets.foldl (selectedStep den P mainPixel mask) s

/-- One patch offset of `denoiseOnlyMainPatch`: average the raw sample
values over the mask-marked window pixels and accumulate the average into
the main pixel's target position only, bumping its counter. -/
def mainPatchStep {N : ℕ} (den : BCDenoiser) (P : Parameters N)
    (mainPixel : Pixel) (mask : Finset ℕ) (s : DState N) (o : Pixel) :
    DState N :=
  let w := P.resolution.1
  let win := den.makeSearchWindow P.resolution mainPixel
  let estimatedValue : Vec N :=
    ((mask.card : ℚ))⁻¹ • sumSimilar den w win o mask P.sampleValue
  let i := idx w (den.targetPixel mainPixel o)
  { s with
    denoisedValue := updFn s.denoisedValue i (s.denoisedValue i + estimatedValue)
    estimatesCounter := updFn s.estimatesCounter i (s.estimatesCounter i + 1) }

/-- `denoiseOnlyMainPatch`: run the fallback average for every patch
offset. -/
def denoiseOnlyMainPatch {N : ℕ} (den : BCDenoiser) (P : Parameters N)
    (mainPixel : Pixel) (mask : Finset ℕ) (s : DState N) : DState N :=
  den.patchOffsets.foldl (mainPatchStep den P mainPixel mask) s

/-- `denoisePixels`: select the similar patches, then use the fallback
`denoiseOnlyMainPatch` when at most `getPatchDimension` patches are similar,
otherwise `denoiseSelectedPatches`. -/
def denoisePixels {N : ℕ} (den : BCDenoiser) (P : Parameters N)
    (mainPixel : Pixel) (s : DState N) : DState N :=
  let mask := den.selectSimilarPatches P mainPixel
  if mask.card ≤ den.getPatchDimension N then
    denoiseOnlyMainPatch den P mainPixel mask s
  else
    denoiseSelectedPatches den P mainPixel mask s

/-- The per-pixel body of `denoiseChunk`: skip the pixel when it is already
marked, otherwise run `denoisePixels` on it. -/
def denoiseChunkPixel {N : ℕ} (den : BCDenoiser) (P : Parameters N)
    (s : DState N) (m : Pixel) : DState N :=
  if s.marker (idx P.resolution.1 m) then s else denoisePixels den P m s

/-- `denoiseChunk`: process the current tile of every chunk (the source runs
the chunks in parallel over disjoint tiles; the deterministic sequential
sweep in chunk-number order is its specified semantics). -/
def denoiseChunk {N : ℕ} (den : BCDenoiser) (P : Parameters N)
    (chunkResolution tilePosition : Pixel) (s : DState N) : DState N :=
  (List.range (chunkResolution.1 * chunkResolution.2)).foldl
    (fun s chunkNumber =>
      let chunkPosition : Pixel :=
        (chunkNumber % chunkResolution.1, chunkNumber / chunkResolution.1)
      ((den.makeChunkTile P.resolution chunkPosition tilePosition).pixels).foldl
        (denoiseChunkPixel den P) s)
    s

/-- One scale's full denoise pass: clear the buffers, then run every tile
position of `getChunkTileOrder()` over all chunks. -/
def denoiseScale {N : ℕ} (den : BCDenoiser) (P : Parameters N) : DState N :=
  let chunkResolution := den.getChunkResolution P.resolution
  getChunkTileOrder.foldl
    (fun s tilePosition => denoiseChunk den P chunkResolution tilePosition s)
    (initialDState N)

/-- `aggregate`: scale every pixel's accumulated `denoisedValue` by the
inverse of its estimate count (asserted positive in the source). -/
def aggregate {N : ℕ} (resolution : Pixel) (s : DState N) : DState N :=
  { s with
    denoisedValue := fun i =>
      if i < resolution.1 * resolution.2 then
        ((s.estimatesCounter i : ℚ))⁻¹ • s.denoisedValue i
      else s.denoisedValue i }

/-- `aggregateFinal`: copy the selected scale's denoised values into the
caller's denoised-sample table, remapping each pixel through the *output
statistics* resolution. -/
def aggregateFinal {N : ℕ} (P : Parameters N) (statsResolution : Pixel)
    (denoisedValue : ℕ → Vec N) (dst : ℕ → Vec N) : ℕ → Vec N :=
  (List.range (P.resolution.1 * P.resolution.2)).foldl
    (fun d pixelIndex =>
      let p : Pixel := (pixelIndex % P.resolution.1, pixelIndex / P.resolution.1)
      updFn d (p.1 + statsResolution.1 * p.2) (denoisedValue pixelIndex))
    dst

/-- `denoiseMultiscale`: build the pyramid, run the (single, because of the
unconditional `break`) scale pass on the scale `selectedScale`, aggregate,
and write the result back into the statistics' denoised-sample table
(initially zero). -/
def denoiseMultiscale {N : ℕ} (den : BCDenoiser) (cycle : ℕ)
    (st : SampleStatistics N) : ℕ → Vec N :=
  let p0 := Parameters.init N cycle den.histogramBins st
  let P := pyramid p0 (selectedScale den.numOfScales)
  let s := aggregate P.resolution (denoiseScale den P)
  aggregateFinal P st.resolution s.denoisedValue (fun _ => 0)

/-- The main-pixel visit sequence of one scale's pass, flattened: every tile
position of the fixed order, every chunk, every pixel of that chunk's tile. -/
def scaleMains (den : BCDenoiser) (resolution : Pixel) : List Pixel :=
  let cr := den.getChunkResolution resolution
  getChunkTileOrder.bind fun tilePosition =>
    (List.range (cr.1 * cr.2)).bind fun chunkNumber =>
      (den.makeChunkTile resolution (chunkNumber % cr.1, chunkNumber / cr.1)
        tilePosition).pixels

end BCDenoiser

section BasicLemmas

theorem idx_inj {w : ℕ} {p q : Pixel} (hp : p.1 < w) (hq : q.1 < w)
    (h : idx w p = idx w q) : p = q := by
  unfold idx at h
  have hw : 0 < w := by omega
  have hmodp : (p.1 + w * p.2) % w = p.1 := by
    rw [Nat.add_mul_mod_self_left, Nat.mod_eq_of_lt hp]
  have hmodq : (q.1 + w * q.2) % w = q.1 := by
    rw [Nat.add_mul_mod_self_left, Nat.mod_eq_of_lt hq]
  have hdivp : (p.1 + w * p.2) / w = p.2 := by
    rw [Nat.add_mul_div_left _ _ hw, Nat.div_eq_of_lt hp, Nat.zero_add]
  have hdivq : (q.1 + w * q.2) / w = q.2 := by
    rw [Nat.add_mul_div_left _ _ hw, Nat.div_eq_of_lt hq, Nat.zero_add]
  rw [h] at hmodp hdivp
  exact Prod.ext (by rw [← hmodp, hmodq]) (by rw [← hdivp, hdivq])

theorem foldl_bind {α β σ : Type} (l : List α) (f : α → List β) (g : σ → β → σ)
    (s : σ) :
    (l.bind f).foldl g s = l.foldl (fun s a => (f a).foldl g s) s := by
  induction l generalizing s with
  | nil => rfl
  | cons a l ih => simp [List.foldl_append, ih]

theorem sum_map_eq_length_smul {α M : Type} [AddCommMonoid M] (l : List α)
    (f : α → M) (v : M) (h : ∀ x ∈ l, f x = v) :
    (l.map f).sum = l.length • v := by
  induction l with
  | nil => simp
  | cons a l ih =>
    simp only [List.map_cons, List.sum_cons, List.length_cons]
    rw [h a (List.mem_cons_self a l), ih (fun x hx => h x (List.mem_cons_of_mem a hx)),
      succ_nsmul, add_comm]

theorem foldl_insert_card (l : List Pixel) (c : Pixel → Prop) [DecidablePred c]
    (f : Pixel → ℕ) (s : Finset ℕ) (hnd : l.Nodup)
    (hinj : ∀ q1 ∈ l, ∀ q2 ∈ l, f q1 = f q2 → q1 = q2)
    (hout : ∀ q ∈ l, c q → f q ∉ s) :
    (l.foldl (fun s q => if c q then insert (f q) s else s) s).card =
      s.card + (l.filter (fun q => decide (c q))).length := by
  induction l generalizing s with
  | nil => simp
  | cons a l ih =>
    have hnd2 := (List.nodup_cons.1 hnd).2
    have hna := (List.nodup_cons.1 hnd).1
    by_cases ha : c a
    · simp only [List.foldl_cons, ha, if_true, List.filter_cons, decide_eq_true_eq]
      rw [ih _ hnd2
          (fun q1 h1 q2 h2 he => hinj q1 (List.mem_cons_of_mem a h1)
            q2 (List.mem_cons_of_mem a h2) he)
          (fun q hq hcq => by
            rw [Finset.mem_insert]
            push_neg
            refine ⟨?_, hout q (List.mem_cons_of_mem a hq) hcq⟩
            intro hfe
            exact hna (hinj q (List.mem_cons_of_mem a hq) a (List.mem_cons_self a l)
              hfe ▸ hq))]
      rw [Finset.card_insert_of_not_mem (hout a (List.mem_cons_self a l) ha)]
      simp [Nat.add_assoc, Nat.add_comm 1]
    · simp only [List.foldl_cons, ha, if_false, List.filter_cons, decide_eq_true_eq]
      exact ih _ hnd2
        (fun q1 h1 q2 h2 he => hinj q1 (List.mem_cons_of_mem a h1)
          q2 (List.mem_cons_of_mem a h2) he)
        (fun q hq hcq => hout q (List.mem_cons_of_mem a hq) hcq)

end BasicLemmas

namespace BCDenoiser

section WindowLemmas

variable {N : ℕ} (den : BCDenoiser) (P : Parameters N)

/-- Every search-window pixel lies in the image inset by the patch radius. -/
theorem window_pixel_bounds {m q : Pixel}
    (hq : q ∈ (den.makeSearchWindow P.resolution m).pixels) :
    den.patchRadius ≤ q.1 ∧ q.1 + den.patchRadius < P.resolution.1 ∧
    den.patchRadius ≤ q.2 ∧ q.2 + den.patchRadius < P.resolution.2 := by
  rcases RenderingTile.mem_pixels.1 hq with ⟨⟨h1, h2⟩, ⟨h3, h4⟩⟩
  unfold makeSearchWindow at h1 h2 h3 h4
  dsimp only at h1 h2 h3 h4
  omega

/-- The main pixel belongs to its own search window whenever its patch fits
in the image. -/
theorem main_mem_window {m : Pixel}
    (h1 : den.patchRadius ≤ m.1) (h2 : m.1 + den.patchRadius < P.resolution.1)
    (h3 : den.patchRadius ≤ m.2) (h4 : m.2 + den.patchRadius < P.resolution.2) :
    m ∈ (den.makeSearchWindow P.resolution m).pixels := by
  rw [RenderingTile.mem_pixels]
  unfold makeSearchWindow
  dsimp only
  omega

/-- The condition under which `selectSimilarPatches` marks a pixel. -/
def similarCond {N : ℕ} (den : BCDenoiser) (P : Parameters N) (m q : Pixel) :
    Prop :=
  (if q = m then 0 else den.calcHistogramPatchDistance P m q) ≤
    den.histogramDistanceThreshold

instance {N : ℕ} (den : BCDenoiser) (P : Parameters N) (m : Pixel) :
    DecidablePred (den.similarCond P m) := fun _ => by
  unfold similarCond
  infer_instance

/-- `selectSimilarPatches` as the guarded insert fold over the window. -/
theorem selectSimilarPatches_eq (m : Pixel) :
    den.selectSimilarPatches P m =
      (den.makeSearchWindow P.resolution m).pixels.foldl
        (fun mask q =>
          if den.similarCond P m q then
            insert ((den.makeSearchWindow P.resolution m).getIndex q) mask
          else mask) ∅ := by
  unfold selectSimilarPatches similarCond
  rfl

/-- Membership characterisation of the similar-patch mask. -/
theorem mem_selectSimilarPatches {m : Pixel} {i : ℕ} :
    i ∈ den.selectSimilarPatches P m ↔
      ∃ q ∈ (den.makeSearchWindow P.resolution m).pixels,
        den.similarCond P m q ∧
        (den.makeSearchWindow P.resolution m).getIndex q = i := by
  rw [selectSimilarPatches_eq, mem_foldl_insert]
  simp

/-- For a window pixel, its bit is set iff its distance passes the
threshold. -/
theorem getIndex_mem_selectSimilarPatches {m q : Pixel}
    (hq : q ∈ (den.makeSearchWindow P.resolution m).pixels) :
    (den.makeSearchWindow P.resolution m).getIndex q ∈
        den.selectSimilarPatches P m ↔ den.similarCond P m q := by
  rw [mem_selectSimilarPatches]
  constructor
  · rintro ⟨r, hr, hcr, hir⟩
    rwa [RenderingTile.getIndex_inj hr hq hir] at hcr
  · intro hc
    exact ⟨q, hq, hc, rfl⟩

/-- The size of the similar-patch mask equals the number of window pixels
passing the threshold. -/
theorem selectSimilarPatches_card (m : Pixel) :
    (den.selectSimilarPatches P m).card =
      ((den.makeSearchWindow P.resolution m).pixels.filter
        (fun q => decide (den.similarCond P m q))).length := by
  rw [selectSimilarPatches_eq]
  rw [foldl_insert_card _ _ _ _ (RenderingTile.pixels_nodup _)
    (fun q1 h1 q2 h2 he => RenderingTile.getIndex_inj h1 h2 he)
    (fun q _ _ => Finset.not_mem_empty _)]
  simp

/-- The mask size also counts the window pixels through the mask-membership
test itself. -/
theorem selectSimilarPatches_filter_card (m : Pixel) :
    ((den.makeSearchWindow P.resolution m).pixels.filter
      (fun q => decide ((den.makeSearchWindow P.resolution m).getIndex q ∈
        den.selectSimilarPatches P m))).length =
      (den.selectSimilarPatches P m).card := by
  have hfe : (den.makeSearchWindow P.resolution m).pixels.filter
      (fun q => decide ((den.makeSearchWindow P.resolution m).getIndex q ∈
        den.selectSimilarPatches P m)) =
      (den.makeSearchWindow P.resolution m).pixels.filter
      (fun q => decide (den.similarCond P m q)) := by
    refine List.filter_congr ?_
    intro q hq
    exact decide_eq_decide.2 (den.getIndex_mem_selectSimilarPatches P hq)
  rw [hfe, ← den.selectSimilarPatches_card P m]

/-- The main pixel always passes the threshold when the threshold is
non-negative (its distance is defined as exactly `0`). -/
theorem similarCond_main {m : Pixel}
    (hth : 0 ≤ den.histogramDistanceThreshold) : den.similarCond P m m := by
  unfold similarCond
  rw [if_pos rfl]
  exact hth

/-- The main pixel's own bit is set whenever its patch fits in the image and
the threshold is non-negative. -/
theorem main_mem_selectSimilarPatches {m : Pixel}
    (h1 : den.patchRadius ≤ m.1) (h2 : m.1 + den.patchRadius < P.resolution.1)
    (h3 : den.patchRadius ≤ m.2) (h4 : m.2 + den.patchRadius < P.resolution.2)
    (hth : 0 ≤ den.histogramDistanceThreshold) :
    (den.makeSearchWindow P.resolution m).getIndex m ∈
      den.selectSimilarPatches P m :=
  (den.getIndex_mem_selectSimilarPatches P
    (den.main_mem_window P h1 h2 h3 h4)).2 (den.similarCond_main P hth)

/-- The mask is nonempty as soon as the main pixel's bit is set. -/
theorem selectSimilarPatches_card_pos {m : Pixel}
    (h1 : den.patchRadius ≤ m.1) (h2 : m.1 + den.patchRadius < P.resolution.1)
    (h3 : den.patchRadius ≤ m.2) (h4 : m.2 + den.patchRadius < P.resolution.2)
    (hth : 0 ≤ den.histogramDistanceThreshold) :
    0 < (den.selectSimilarPatches P m).card :=
  Finset.card_pos.2 ⟨_, den.main_mem_selectSimilarPatches P h1 h2 h3 h4 hth⟩

end WindowLemmas

section StateLemmas

variable {N : ℕ} (den : BCDenoiser) (w : ℕ) (win : RenderingTile)
variable (mask : Finset ℕ) (o : Pixel)

theorem accumStep_staging (s : DState N) (q : Pixel) :
    (accumStep den w win mask o s q).staging = s.staging := by
  unfold accumStep
  split <;> rfl

theorem accumStep_counter_le (s : DState N) (q : Pixel) (j : ℕ) :
    s.estimatesCounter j ≤ (accumStep den w win mask o s q).estimatesCounter j := by
  unfold accumStep
  split
  · dsimp only
    unfold updFn
    by_cases hj : j = idx w (den.targetPixel q o)
    · subst hj
      simp
    · rw [if_neg hj]
  · exact le_refl _

theorem accumStep_marker_le (s : DState N) (q : Pixel) (j : ℕ)
    (h : s.marker j = true) : (accumStep den w win mask o s q).marker j = true := by
  unfold accumStep
  split
  · dsimp only
    split
    · unfold updFn
      split <;> simp [h]
    · exact h
  · exact h

theorem accumFold_staging (l : List Pixel) (s : DState N) :
    (l.foldl (accumStep den w win mask o) s).staging = s.staging := by
  induction l generalizing s with
  | nil => rfl
  | cons q l ih => rw [List.foldl_cons, ih, accumStep_staging]

theorem accumFold_counter_le (l : List Pixel) (s : DState N) (j : ℕ) :
    s.estimatesCounter j ≤
      (l.foldl (accumStep den w win mask o) s).estimatesCounter j := by
  induction l generalizing s with
  | nil => exact le_refl _
  | cons q l ih =>
    rw [List.foldl_cons]
    exact le_trans (accumStep_counter_le den w win mask o s q j) (ih _)

theorem accumFold_marker_le (l : List Pixel) (s : DState N) (j : ℕ)
    (h : s.marker j = true) :
    (l.foldl (accumStep den w win mask o) s).marker j = true := by
  induction l generalizing s with
  | nil => exact h
  | cons q l ih =>
    rw [List.foldl_cons]
    exact ih _ (accumStep_marker_le den w win mask o s q j h)

theorem accumFold_counter_hit (l : List Pixel) (s : DState N) {q0 : Pixel}
    (hq0 : q0 ∈ l) (hm : win.getIndex q0 ∈ mask) :
    1 ≤ (l.foldl (accumStep den w win mask o) s).estimatesCounter
      (idx w (den.targetPixel q0 o)) := by
  induction l generalizing s with
  | nil => cases hq0
  | cons q l ih =>
    rw [List.foldl_cons]
    rcases List.mem_cons.1 hq0 with rfl | hq0
    · refine le_trans ?_ (accumFold_counter_le den w win mask o l _ _)
      unfold accumStep
      rw [if_pos hm]
      dsimp only
      rw [updFn_same]
      omega
    · exact ih _ hq0

theorem accumFold_marker_src (l : List Pixel) (s : DState N) (j : ℕ)
    (h : (l.foldl (accumStep den w win mask o) s).marker j = true) :
    s.marker j = true ∨ (o = (den.patchRadius, den.patchRadius) ∧
      ∃ q ∈ l, win.getIndex q ∈ mask ∧ j = idx w (den.targetPixel q o)) := by
  induction l generalizing s with
  | nil => exact Or.inl h
  | cons q l ih =>
    rw [List.foldl_cons] at h
    rcases ih _ h with hs | ⟨hc, r, hr, hmr, hjr⟩
    · unfold accumStep at hs
      by_cases hm : win.getIndex q ∈ mask
      · rw [if_pos hm] at hs
        dsimp only at hs
        by_cases hcen : o = (den.patchRadius, den.patchRadius)
        · rw [if_pos hcen] at hs
          unfold updFn at hs
          by_cases hj : j = idx w (den.targetPixel q o)
          · exact Or.inr ⟨hcen, q, List.mem_cons_self q l, hm, hj⟩
          · rw [if_neg hj] at hs
            exact Or.inl hs
        · rw [if_neg hcen] at hs
          exact Or.inl hs
      · rw [if_neg hm] at hs
        exact Or.inl hs
    · exact Or.inr ⟨hc, r, List.mem_cons_of_mem q hr, hmr, hjr⟩

/-- The target pixel at the patch-center offset is the window pixel itself. -/
theorem targetPixel_center (q : Pixel) :
    den.targetPixel q (den.patchRadius, den.patchRadius) = q := by
  unfold targetPixel
  simp

theorem selectedStep_counter_le (P : Parameters N) (m : Pixel) (s : DState N)
    (j : ℕ) :
    s.estimatesCounter j ≤
      (selectedStep den P m mask s o).estimatesCounter j := by
  unfold selectedStep accumulateOffset
  exact accumFold_counter_le den P.resolution.1
    (den.makeSearchWindow P.resolution m) mask o
    (den.makeSearchWindow P.resolution m).pixels
    { s with staging := selectedStaging den P m mask o s.staging } j

theorem selectedStep_marker_le (P : Parameters N) (m : Pixel) (s : DState N)
    (j : ℕ) (h : s.marker j = true) :
    (selectedStep den P m mask s o).marker j = true := by
  unfold selectedStep accumulateOffset
  exact accumFold_marker_le den P.resolution.1
    (den.makeSearchWindow P.resolution m) mask o
    (den.makeSearchWindow P.resolution m).pixels
    { s with staging := selectedStaging den P m mask o s.staging } j h

theorem mainPatchStep_counter_le (P : Parameters N) (m : Pixel) (s : DState N)
    (j : ℕ) :
    s.estimatesCounter j ≤
      (mainPatchStep den P m mask s o).estimatesCounter j := by
  unfold mainPatchStep
  dsimp only
  unfold updFn
  by_cases hj : j = idx P.resolution.1 (den.targetPixel m o)
  · subst hj
    simp
  · rw [if_neg hj]

theorem mainPatchStep_marker (P : Parameters N) (m : Pixel) (s : DState N) :
    (mainPatchStep den P m mask s o).marker = s.marker := rfl

end StateLemmas

section PatchFoldLemmas

variable {N : ℕ} (den : BCDenoiser) (P : Parameters N) (m : Pixel)
variable (mask : Finset ℕ)

theorem selectedFold_counter_le (l : List Pixel) (s : DState N) (j : ℕ) :
    s.estimatesCounter j ≤
      (l.foldl (selectedStep den P m mask) s).estimatesCounter j := by
  induction l generalizing s with
  | nil => exact le_refl _
  | cons o l ih =>
    rw [List.foldl_cons]
    exact le_trans (selectedStep_counter_le den mask o P m s j) (ih _)

theorem selectedFold_marker_le (l : List Pixel) (s : DState N) (j : ℕ)
    (h : s.marker j = true) :
    (l.foldl (selectedStep den P m mask) s).marker j = true := by
  induction l generalizing s with
  | nil => exact h
  | cons o l ih =>
    rw [List.foldl_cons]
    exact ih _ (selectedStep_marker_le den mask o P m s j h)

theorem selectedFold_counter_hit (l : List Pixel) (s : DState N) {o0 : Pixel}
    (ho0 : o0 ∈ l) {q : Pixel}
    (hq : q ∈ (den.makeSearchWindow P.resolution m).pixels)
    (hm : (den.makeSearchWindow P.resolution m).getIndex q ∈ mask) :
    1 ≤ (l.foldl (selectedStep den P m mask) s).estimatesCounter
      (idx P.resolution.1 (den.targetPixel q o0)) := by
  induction l generalizing s with
  | nil => cases ho0
  | cons o l ih =>
    rw [List.foldl_cons]
    rcases List.mem_cons.1 ho0 with rfl | ho0
    · refine le_trans ?_ (selectedFold_counter_le den P m mask l _ _)
      unfold selectedStep accumulateOffset
      exact accumFold_counter_hit den _ _ mask o0 _ _ hq hm
    · exact ih _ ho0

theorem selectedFold_marker_src (l : List Pixel) (s : DState N) (j : ℕ)
    (h : (l.foldl (selectedStep den P m mask) s).marker j = true) :
    s.marker j = true ∨
      ∃ q ∈ (den.makeSearchWindow P.resolution m).pixels,
        (den.makeSearchWindow P.resolution m).getIndex q ∈ mask ∧
        j = idx P.resolution.1 q := by
  induction l generalizing s with
  | nil => exact Or.inl h
  | cons o l ih =>
    rw [List.foldl_cons] at h
    rcases ih _ h with hs | hfound
    · unfold selectedStep accumulateOffset at hs
      rcases accumFold_marker_src den _ _ mask o _ _ j hs with hs2 | ⟨hcen, q, hq, hmq, hjq⟩
      · exact Or.inl hs2
      · refine Or.inr ⟨q, hq, hmq, ?_⟩
        rw [hjq, hcen, targetPixel_center]
    · exact Or.inr hfound

theorem mainFold_counter_le (l : List Pixel) (s : DState N) (j : ℕ) :
    s.estimatesCounter j ≤
      (l.foldl (mainPatchStep den P m mask) s).estimatesCounter j := by
  induction l generalizing s with
  | nil => exact le_refl _
  | cons o l ih =>
    rw [List.foldl_cons]
    exact le_trans (mainPatchStep_counter_le den mask o P m s j) (ih _)

theorem mainFold_marker (l : List Pixel) (s : DState N) :
    (l.foldl (mainPatchStep den P m mask) s).marker = s.marker := by
  induction l generalizing s with
  | nil => rfl
  | cons o l ih => rw [List.foldl_cons, ih, mainPatchStep_marker]

theorem mainFold_counter_hit (l : List Pixel) (s : DState N) {o0 : Pixel}
    (ho0 : o0 ∈ l) :
    1 ≤ (l.foldl (mainPatchStep den P m mask) s).estimatesCounter
      (idx P.resolution.1 (den.targetPixel m o0)) := by
  induction l generalizing s with
  | nil => cases ho0
  | cons o l ih =>
    rw [List.foldl_cons]
    rcases List.mem_cons.1 ho0 with rfl | ho0
    · refine le_trans ?_ (mainFold_counter_le den P m mask l _ _)
      unfold mainPatchStep
      dsimp only
      rw [updFn_same]
      omega
    · exact ih _ ho0

end PatchFoldLemmas

section PassLemmas

variable {N : ℕ} (den : BCDenoiser) (P : Parameters N)

/-- A pixel whose patch fits inside the image (the main pixels visited by
the chunk tiles all satisfy this). -/
def inRegion (den : BCDenoiser) (resolution : Pixel) (m : Pixel) : Prop :=
  den.patchRadius ≤ m.1 ∧ m.1 + den.patchRadius < resolution.1 ∧
  den.patchRadius ≤ m.2 ∧ m.2 + den.patchRadius < resolution.2

/-- Every target position of `m`'s patch has received at least one
estimate. -/
def patchCovered (den : BCDenoiser) (w : ℕ) (s : DState N) (m : Pixel) :
    Prop :=
  ∀ o ∈ den.patchOffsets,
    1 ≤ s.estimatesCounter (idx w (den.targetPixel m o))

/-- The pass invariant: every marked pixel already has its whole patch
covered by estimates. -/
def InvPatch (den : BCDenoiser) (resolution : Pixel) (s : DState N) : Prop :=
  ∀ q : Pixel, q.1 < resolution.1 → q.2 < resolution.2 →
    s.marker (idx resolution.1 q) = true → patchCovered den resolution.1 s q

theorem patchCovered_mono {w : ℕ} {s t : DState N} {m : Pixel}
    (h : patchCovered den w s m)
    (hle : ∀ j, s.estimatesCounter j ≤ t.estimatesCounter j) :
    patchCovered den w t m :=
  fun o ho => le_trans (h o ho) (hle _)

theorem initial_InvPatch : InvPatch den P.resolution (initialDState N) := by
  intro q _ _ hmark
  cases hmark

theorem denoisePixels_counter_le (m : Pixel) (s : DState N) (j : ℕ) :
    s.estimatesCounter j ≤ (denoisePixels den P m s).estimatesCounter j := by
  unfold denoisePixels denoiseOnlyMainPatch denoiseSelectedPatches
  dsimp only
  split
  · exact mainFold_counter_le den P m _ _ _ j
  · exact selectedFold_counter_le den P m _ _ _ j

theorem denoiseChunkPixel_counter_le (m : Pixel) (s : DState N) (j : ℕ) :
    s.estimatesCounter j ≤ (denoiseChunkPixel den P s m).estimatesCounter j := by
  unfold denoiseChunkPixel
  split
  · exact le_refl _
  · exact denoisePixels_counter_le den P m s j

theorem denoiseChunkPixel_invPatch (m : Pixel) (s : DState N)
    (hinv : InvPatch den P.resolution s) :
    InvPatch den P.resolution (denoiseChunkPixel den P s m) := by
  unfold denoiseChunkPixel
  split
  · exact hinv
  · unfold denoisePixels denoiseOnlyMainPatch denoiseSelectedPatches
    dsimp only
    split
    · intro q hq1 hq2 hmark
      rw [mainFold_marker] at hmark
      exact patchCovered_mono den (hinv q hq1 hq2 hmark)
        (fun j => mainFold_counter_le den P m _ _ _ j)
    · intro q hq1 hq2 hmark
      rcases selectedFold_marker_src den P m _ _ _ _ hmark with hold | ⟨r, hr, hmr, hjq⟩
      · exact patchCovered_mono den (hinv q hq1 hq2 hold)
          (fun j => selectedFold_counter_le den P m _ _ _ j)
      · have hrw : r.1 < P.resolution.1 := by
          have := den.window_pixel_bounds P hr
          omega
        have hqr : q = r := idx_inj hq1 hrw hjq
        subst hqr
        intro o ho
        exact selectedFold_counter_hit den P m _ _ _ ho hr hmr

theorem denoiseChunkPixel_patchCovered (m : Pixel) (s : DState N)
    (hm : inRegion den P.resolution m)
    (hth : 0 ≤ den.histogramDistanceThreshold)
    (hinv : InvPatch den P.resolution s) :
    patchCovered den P.resolution.1 (denoiseChunkPixel den P s m) m := by
  obtain ⟨h1, h2, h3, h4⟩ := hm
  unfold denoiseChunkPixel
  split
  · next hmark =>
    exact hinv m (by omega) (by omega) hmark
  · unfold denoisePixels denoiseOnlyMainPatch denoiseSelectedPatches
    dsimp only
    split
    · intro o ho
      exact mainFold_counter_hit den P m _ _ _ ho
    · intro o ho
      exact selectedFold_counter_hit den P m _ _ _ ho
        (den.main_mem_window P h1 h2 h3 h4)
        (den.main_mem_selectSimilarPatches P h1 h2 h3 h4 hth)

theorem passFold_counter_le (l : List Pixel) (s : DState N) (j : ℕ) :
    s.estimatesCounter j ≤
      (l.foldl (den.denoiseChunkPixel P) s).estimatesCounter j := by
  induction l generalizing s with
  | nil => exact le_refl _
  | cons m l ih =>
    rw [List.foldl_cons]
    exact le_trans (denoiseChunkPixel_counter_le den P m s j) (ih _)

theorem passFold_invPatch (l : List Pixel) (s : DState N)
    (hinv : InvPatch den P.resolution s) :
    InvPatch den P.resolution (l.foldl (den.denoiseChunkPixel P) s) := by
  induction l generalizing s with
  | nil => exact hinv
  | cons m l ih =>
    rw [List.foldl_cons]
    exact ih _ (denoiseChunkPixel_invPatch den P m s hinv)

theorem passFold_patchCovered (l : List Pixel) (s : DState N)
    (hth : 0 ≤ den.histogramDistanceThreshold)
    (hreg : ∀ m ∈ l, inRegion den P.resolution m)
    (hinv : InvPatch den P.resolution s) :
    ∀ m ∈ l, patchCovered den P.resolution.1
      (l.foldl (den.denoiseChunkPixel P) s) m := by
  induction l generalizing s with
  | nil => intro m hm; cases hm
  | cons a l ih =>
    intro m hm
    rw [List.foldl_cons]
    rcases List.mem_cons.1 hm with rfl | hm
    · refine patchCovered_mono den
        (denoiseChunkPixel_patchCovered den P m s
          (hreg m (List.mem_cons_self m l)) hth hinv) ?_
      intro j
      exact passFold_counter_le den P l _ j
    · exact ih _ (fun r hr => hreg r (List.mem_cons_of_mem a hr))
        (denoiseChunkPixel_invPatch den P a s hinv) m hm

end PassLemmas

section Enumeration

variable (den : BCDenoiser)

/-- Rounding up covers: `a ≤ ceil(a / b) * b`. -/
theorem le_ceilDiv_mul (a b : ℕ) (hb : 0 < b) :
    a ≤ (a / b + if a % b ≠ 0 then 1 else 0) * b := by
  by_cases h : a % b = 0
  · simp only [h, ne_eq, not_true_eq_false, if_false, Nat.add_zero]
    exact le_of_eq (Nat.div_mul_cancel (Nat.dvd_of_mod_eq_zero h)).symm
  · simp only [h, ne_eq, not_false_eq_true, if_true]
    have h1 : b * (a / b) + a % b = a := Nat.div_add_mod a b
    have h2 : a % b < b := Nat.mod_lt _ hb
    have h3 : (a / b + 1) * b = b * (a / b) + b := by ring
    omega

/-- One axis of the chunked tiling: every coordinate of the inset interval
is covered by the tile of some chunk index below the chunk count and some
tile index below `3`. -/
theorem coord_tile_cover (pr sr W : ℕ) (hsr : 0 < sr) (x : ℕ)
    (hx1 : pr ≤ x) (hx2 : x + pr < W) :
    ∃ c t : ℕ, t < 3 ∧
      c < (W - 2 * pr) / (3 * sr) +
        (if (W - 2 * pr) % (3 * sr) ≠ 0 then 1 else 0) ∧
      min (pr + 3 * sr * c + sr * t) (W - pr) ≤ x ∧
      x < min (pr + 3 * sr * c + sr * t + sr) (W - pr) := by
  have hC : 0 < 3 * sr := by omega
  set A := x - pr with hA
  have h1 : 3 * sr * (A / (3 * sr)) + A % (3 * sr) = A := Nat.div_add_mod A (3 * sr)
  have h2 : A % (3 * sr) < 3 * sr := Nat.mod_lt _ hC
  have h3 : sr * (A % (3 * sr) / sr) + A % (3 * sr) % sr = A % (3 * sr) :=
    Nat.div_add_mod _ sr
  have h4 : A % (3 * sr) % sr < sr := Nat.mod_lt _ hsr
  refine ⟨A / (3 * sr), A % (3 * sr) / sr, ?_, ?_, ?_, ?_⟩
  · have h5 : sr * (A % (3 * sr) / sr) < sr * 3 := by omega
    exact Nat.lt_of_mul_lt_mul_left h5
  · by_contra hcon
    push_neg at hcon
    have h6 := le_ceilDiv_mul (W - 2 * pr) (3 * sr) hC
    have h7 : ((W - 2 * pr) / (3 * sr) +
        (if (W - 2 * pr) % (3 * sr) ≠ 0 then 1 else 0)) * (3 * sr) ≤
        (A / (3 * sr)) * (3 * sr) := Nat.mul_le_mul_right _ hcon
    have h8 : (A / (3 * sr)) * (3 * sr) = 3 * sr * (A / (3 * sr)) :=
      Nat.mul_comm _ _
    omega
  · have h9 : 3 * sr * (A / (3 * sr)) + sr * (A % (3 * sr) / sr) ≤ A := by omega
    omega
  · have h10 : A < 3 * sr * (A / (3 * sr)) + sr * (A % (3 * sr) / sr) + sr := by
      omega
    omega

/-- Every pixel of the patch-inset region belongs to the tile of some chunk
position (inside the chunk grid) and tile position (inside `{0,1,2}²`). -/
theorem region_covered {resolution m : Pixel} (hsr : 1 ≤ den.searchRadius)
    (hm : den.inRegion resolution m) :
    ∃ cp tp : Pixel, tp.1 < 3 ∧ tp.2 < 3 ∧
      cp.1 < (den.getChunkResolution resolution).1 ∧
      cp.2 < (den.getChunkResolution resolution).2 ∧
      m ∈ (den.makeChunkTile resolution cp tp).pixels := by
  obtain ⟨h1, h2, h3, h4⟩ := hm
  obtain ⟨c1, t1, ht1, hc1, hb1, he1⟩ :=
    coord_tile_cover den.patchRadius den.searchRadius resolution.1 hsr m.1 h1 h2
  obtain ⟨c2, t2, ht2, hc2, hb2, he2⟩ :=
    coord_tile_cover den.patchRadius den.searchRadius resolution.2 hsr m.2 h3 h4
  refine ⟨(c1, c2), (t1, t2), ht1, ht2, ?_, ?_, ?_⟩
  · unfold getChunkResolution getChunkSize
    dsimp only
    exact hc1
  · unfold getChunkResolution getChunkSize
    dsimp only
    exact hc2
  · rw [RenderingTile.mem_pixels]
    unfold makeChunkTile getChunkSize
    dsimp only
    exact ⟨⟨hb1, he1⟩, ⟨hb2, he2⟩⟩

/-- Every pixel of a chunk tile lies in the patch-inset region. -/
theorem chunkTile_inRegion {resolution cp tp m : Pixel}
    (hw : 2 * den.patchRadius + 1 ≤ resolution.1)
    (hh : 2 * den.patchRadius + 1 ≤ resolution.2)
    (hm : m ∈ (den.makeChunkTile resolution cp tp).pixels) :
    den.inRegion resolution m := by
  rw [RenderingTile.mem_pixels] at hm
  unfold makeChunkTile getChunkSize at hm
  dsimp only at hm
  unfold inRegion
  omega

/-- The nine tile positions are exactly `getChunkTileOrder`. -/
theorem mem_getChunkTileOrder {tp : Pixel} (h1 : tp.1 < 3) (h2 : tp.2 < 3) :
    tp ∈ getChunkTileOrder := by
  obtain ⟨a, b⟩ := tp
  dsimp only at h1 h2
  interval_cases a <;> interval_cases b <;> simp [getChunkTileOrder]

/-- Every region pixel occurs in the flattened visit sequence of the pass. -/
theorem mem_scaleMains {resolution m : Pixel} (hsr : 1 ≤ den.searchRadius)
    (hm : den.inRegion resolution m) :
    m ∈ den.scaleMains resolution := by
  obtain ⟨cp, tp, ht1, ht2, hc1, hc2, hmem⟩ := den.region_covered hsr hm
  unfold scaleMains
  refine List.mem_bind.2 ⟨tp, mem_getChunkTileOrder ht1 ht2, ?_⟩
  refine List.mem_bind.2 ⟨cp.1 + (den.getChunkResolution resolution).1 * cp.2,
    List.mem_range.2 ?_, ?_⟩
  · have e1 : (den.getChunkResolution resolution).1 * (cp.2 + 1) =
        (den.getChunkResolution resolution).1 * cp.2 +
        (den.getChunkResolution resolution).1 := by ring
    have e2 : (den.getChunkResolution resolution).1 * (cp.2 + 1) ≤
        (den.getChunkResolution resolution).1 *
        (den.getChunkResolution resolution).2 :=
      Nat.mul_le_mul_left _ (by omega)
    omega
  · have hmod : (cp.1 + (den.getChunkResolution resolution).1 * cp.2) %
        (den.getChunkResolution resolution).1 = cp.1 := by
      rw [Nat.add_mul_mod_self_left, Nat.mod_eq_of_lt hc1]
    have hdiv : (cp.1 + (den.getChunkResolution resolution).1 * cp.2) /
        (den.getChunkResolution resolution).1 = cp.2 := by
      rw [Nat.add_mul_div_left _ _ (by omega), Nat.div_eq_of_lt hc1, Nat.zero_add]
    rw [hmod, hdiv]
    exact hmem

/-- Conversely, every visited pixel lies in the patch-inset region. -/
theorem scaleMains_inRegion {resolution m : Pixel}
    (hw : 2 * den.patchRadius + 1 ≤ resolution.1)
    (hh : 2 * den.patchRadius + 1 ≤ resolution.2)
    (hm : m ∈ den.scaleMains resolution) : den.inRegion resolution m := by
  unfold scaleMains at hm
  rcases List.mem_bind.1 hm with ⟨tp, _, hm⟩
  rcases List.mem_bind.1 hm with ⟨cn, _, hm⟩
  exact den.chunkTile_inRegion hw hh hm

/-- `denoiseScale` is the fold of the per-pixel body over the flattened
visit sequence. -/
theorem denoiseScale_eq {N : ℕ} (P : Parameters N) :
    den.denoiseScale P =
      (den.scaleMains P.resolution).foldl (den.denoiseChunkPixel P)
        (initialDState N) := by
  unfold denoiseScale denoiseChunk scaleMains
  simp only [foldl_bind]

/-- Every image pixel is the patch target of some region pixel. -/
theorem exists_region_target {resolution p : Pixel}
    (hw : 2 * den.patchRadius + 1 ≤ resolution.1)
    (hh : 2 * den.patchRadius + 1 ≤ resolution.2)
    (hp1 : p.1 < resolution.1) (hp2 : p.2 < resolution.2) :
    ∃ m o : Pixel, den.inRegion resolution m ∧ o ∈ den.patchOffsets ∧
      den.targetPixel m o = p := by
  set pr := den.patchRadius with hpr
  refine ⟨(min (max p.1 pr) (resolution.1 - pr - 1),
           min (max p.2 pr) (resolution.2 - pr - 1)),
          (p.1 + pr - min (max p.1 pr) (resolution.1 - pr - 1),
           p.2 + pr - min (max p.2 pr) (resolution.2 - pr - 1)), ?_, ?_, ?_⟩
  · unfold inRegion
    dsimp only
    omega
  · rw [mem_patchOffsets]
    dsimp only
    omega
  · unfold targetPixel
    dsimp only
    have e1 : min (max p.1 pr) (resolution.1 - pr - 1) ≤ p.1 + pr := by omega
    have e2 : min (max p.2 pr) (resolution.2 - pr - 1) ≤ p.2 + pr := by omega
    refine Prod.ext ?_ ?_ <;> dsimp only <;> omega

end Enumeration

/-- The marked-implies-estimated invariant of one pass state. -/
def Inv9 {N : ℕ} (s : DState N) : Prop :=
  ∀ j : ℕ, s.marker j = true → 1 ≤ s.estimatesCounter j

theorem denoiseChunkPixel_inv9 {N : ℕ} (den : BCDenoiser) (P : Parameters N)
    (s : DState N) (m : Pixel) (hinv : Inv9 s) :
    Inv9 (den.denoiseChunkPixel P s m) := by
  unfold denoiseChunkPixel
  split
  · exact hinv
  · unfold denoisePixels denoiseOnlyMainPatch denoiseSelectedPatches
    dsimp only
    split
    · intro j hmark
      rw [mainFold_marker] at hmark
      exact le_trans (hinv j hmark) (mainFold_counter_le den P m _ _ _ j)
    · intro j hmark
      rcases selectedFold_marker_src den P m _ _ _ _ hmark with hold | ⟨r, hr, hmr, hjq⟩
      · exact le_trans (hinv j hold) (selectedFold_counter_le den P m _ _ _ j)
      · have := selectedFold_counter_hit den P m
          (den.selectSimilarPatches P m) den.patchOffsets s
          (den.center_mem_patchOffsets) hr hmr
        rwa [targetPixel_center, ← hjq] at this

theorem passFold_inv9 {N : ℕ} (den : BCDenoiser) (P : Parameters N)
    (l : List Pixel) (s : DState N) (hinv : Inv9 s) :
    Inv9 (l.foldl (den.denoiseChunkPixel P) s) := by
  induction l generalizing s with
  | nil => exact hinv
  | cons m l ih =>
    rw [List.foldl_cons]
    exact ih _ (denoiseChunkPixel_inv9 den P s m hinv)

end BCDenoiser

section Claims1

open BCDenoiser

/-- C1 (amended): for every invocation with `numberOfScales = n ≥ 1`,
exactly one scale is denoised — the per-scale loop breaks after its first
iteration — but that scale is the COARSEST one, index `n - 1` (the scale the
`parameters` pointer holds when `aggregateFinal` runs); it coincides with
the finest scale `0` exactly when `n = 1`. -/
theorem C1_single_scale_coarsest (n : ℕ) (hn : 1 ≤ n) :
    denoisedScales n = [selectedScale n] ∧ (denoisedScales n).length = 1 ∧
    (selectedScale n = 0 ↔ n = 1) := by
  unfold denoisedScales selectedScale
  rw [if_pos (by omega)]
  exact ⟨rfl, rfl, by omega⟩

/-- Witness for C1: at `numberOfScales = 2` the denoised scale is `1`. -/
theorem C1_single_scale_coarsest_witness :
    1 ≤ 2 ∧ (denoisedScales 2 = [selectedScale 2] ∧
      (denoisedScales 2).length = 1 ∧ (selectedScale 2 = 0 ↔ 2 = 1)) :=
  ⟨by decide, C1_single_scale_coarsest 2 (by decide)⟩

/-- A tiny two-scale parameter pyramid used to exhibit the scale selection. -/
def paramsC1 : Parameters 1 :=
  ⟨(2, 2), 2, 1, fun _ => 0, fun _ => 0, fun _ => 0⟩

/-- C1 counterexample: with `numberOfScales = 2` the scale handed to
`aggregateFinal` is scale `1`, whose resolution `(1, 1)` is not the finest
resolution `(2, 2)` of scale `0`. -/
theorem C1_counterexample :
    denoisedScales 2 = [1] ∧ selectedScale 2 = 1 ∧ (1 : ℕ) ≠ 0 ∧
    (pyramid paramsC1 (selectedScale 2)).resolution = (1, 1) ∧
    (pyramid paramsC1 0).resolution = (2, 2) ∧
    (pyramid paramsC1 (selectedScale 2)).resolution ≠
      (pyramid paramsC1 0).resolution := by
  refine ⟨by decide, by decide, by decide, ?_, rfl, ?_⟩
  · rfl
  · decide

/-- The denoiser configuration used by the witnesses: one histogram bin,
zero threshold, patch radius `0`, search radius `1`, one scale. -/
def denW : BCDenoiser := ⟨1, 0, 0, 1, 1⟩

/-- A one-pixel parameter set used by the witnesses. -/
def paramsW : Parameters 1 :=
  ⟨(1, 1), 2, 1, fun _ => 0, fun _ => 0, fun _ => 0⟩

/-- C4: after all tiles of one scale's denoising pass (every chunk, every
tile position of the fixed order), every pixel of that scale's resolution
has an estimate count of at least `1` — so the zero-count assertion in
`aggregate` is unreachable — and `aggregate` sets every pixel's
`denoisedValue` to its accumulated sum divided by that pixel's estimate
count. -/
theorem C4_pass_covers_every_pixel {N : ℕ} (den : BCDenoiser)
    (P : Parameters N) (hsr : 1 ≤ den.searchRadius)
    (hw : 2 * den.patchRadius + 1 ≤ P.resolution.1)
    (hh : 2 * den.patchRadius + 1 ≤ P.resolution.2)
    (hth : 0 ≤ den.histogramDistanceThreshold) :
    (∀ p : Pixel, p.1 < P.resolution.1 → p.2 < P.resolution.2 →
      1 ≤ (den.denoiseScale P).estimatesCounter (idx P.resolution.1 p)) ∧
    (∀ i : ℕ, i < P.resolution.1 * P.resolution.2 →
      (BCDenoiser.aggregate P.resolution (den.denoiseScale P)).denoisedValue i =
        (((den.denoiseScale P).estimatesCounter i : ℚ))⁻¹ •
          (den.denoiseScale P).denoisedValue i) := by
  constructor
  · intro p hp1 hp2
    obtain ⟨m, o, hreg, ho, htp⟩ := den.exists_region_target hw hh hp1 hp2
    have hmem := den.mem_scaleMains hsr hreg
    have hcov := den.passFold_patchCovered P (den.scaleMains P.resolution)
      (initialDState N) hth (fun r hr => den.scaleMains_inRegion hw hh hr)
      (den.initial_InvPatch P) m hmem
    rw [den.denoiseScale_eq P]
    have hco := hcov o ho
    rwa [htp] at hco
  · intro i hi
    unfold BCDenoiser.aggregate
    dsimp only
    rw [if_pos hi]

/-- Witness for C4, at the one-pixel configuration. -/
theorem C4_pass_covers_every_pixel_witness :
    (1 ≤ denW.searchRadius ∧ 2 * denW.patchRadius + 1 ≤ paramsW.resolution.1 ∧
     2 * denW.patchRadius + 1 ≤ paramsW.resolution.2 ∧
     0 ≤ denW.histogramDistanceThreshold) ∧
    ((∀ p : Pixel, p.1 < paramsW.resolution.1 → p.2 < paramsW.resolution.2 →
      1 ≤ (denW.denoiseScale paramsW).estimatesCounter
        (idx paramsW.resolution.1 p)) ∧
    (∀ i : ℕ, i < paramsW.resolution.1 * paramsW.resolution.2 →
      (BCDenoiser.aggregate paramsW.resolution
          (denW.denoiseScale paramsW)).denoisedValue i =
        (((denW.denoiseScale paramsW).estimatesCounter i : ℚ))⁻¹ •
          (denW.denoiseScale paramsW).denoisedValue i)) :=
  ⟨⟨by decide, by decide, by decide, by decide⟩,
   C4_pass_covers_every_pixel denW paramsW (by decide) (by decide) (by decide)
     (by decide)⟩

/-- C9 counterexample: at the one-pixel configuration the single main pixel
is denoised through the fallback `denoiseOnlyMainPatch` (its mask holds one
similar patch, which is at most the patch dimension), so after the pass its
estimate counter is `1` while its `PixelMarker` bit is still unset: a pixel
with a nonzero estimate count need not be marked. -/
theorem C9_counterexample :
    1 ≤ (BCDenoiser.denoiseScale denW paramsW).estimatesCounter 0 ∧
    (BCDenoiser.denoiseScale denW paramsW).marker 0 = false := by
  decide

/-- C9 (amended): throughout one scale's pass — after any prefix of the
flattened pixel visit sequence — every pixel whose `PixelMarker` bit is set
has an estimate count of at least `1`: the set of pixels with a nonzero
estimate count contains the set of marked pixels (the containment opposite
to the original claim, which fails because `denoiseOnlyMainPatch` increments
counters without marking and `denoiseSelectedPatches` increments at
non-center patch offsets it does not mark). -/
theorem C9_marked_implies_estimated {N : ℕ} (den : BCDenoiser)
    (P : Parameters N) (l1 l2 : List Pixel)
    (hsplit : den.scaleMains P.resolution = l1 ++ l2) :
    ∀ j : ℕ,
      (l1.foldl (den.denoiseChunkPixel P) (initialDState N)).marker j = true →
      1 ≤ (l1.foldl (den.denoiseChunkPixel P) (initialDState N)).estimatesCounter j :=
  passFold_inv9 den P l1 (initialDState N) (fun _ h => by cases h)

/-- Witness for C9, at the one-pixel configuration and the full pass. -/
theorem C9_marked_implies_estimated_witness :
    denW.scaleMains paramsW.resolution =
      denW.scaleMains paramsW.resolution ++ [] ∧
    (∀ j : ℕ,
      ((denW.scaleMains paramsW.resolution).foldl
        (denW.denoiseChunkPixel paramsW) (initialDState 1)).marker j = true →
      1 ≤ ((denW.scaleMains paramsW.resolution).foldl
        (denW.denoiseChunkPixel paramsW) (initialDState 1)).estimatesCounter j) :=
  ⟨by simp, C9_marked_implies_estimated denW paramsW _ [] (by simp)⟩

/-- C8 counterexample: at resolution `32x32` with `searchRadius = 4` the
chunk size is `12`, but at the equally valid `patchRadius = 4` the chunk
grid is `(2, 2)`, not `(3, 3)`: `getChunkResolution` divides the resolution
inset by `2 * patchRadius`, not the full resolution. -/
theorem C8_counterexample :
    BCDenoiser.getChunkSize ⟨8, 0, 4, 4, 1⟩ = 12 ∧
    (⟨8, 0, 4, 4, 1⟩ : BCDenoiser).patchRadius ≤
      (⟨8, 0, 4, 4, 1⟩ : BCDenoiser).searchRadius ∧
    BCDenoiser.getChunkResolution ⟨8, 0, 4, 4, 1⟩ (32, 32) = (2, 2) ∧
    ((2, 2) : Pixel) ≠ (3, 3) := by
  refine ⟨rfl, by decide, by decide, by decide⟩

/-- C8 (amended): the chunk side is `3 * searchRadius` for every
configuration, and for resolution `32x32` with `searchRadius = 4` the chunk
grid is `ceil((32 - 2 * patchRadius) / 12)` per axis, which equals `(3, 3)`
for every `patchRadius ≤ 3` (at `patchRadius = 4` it is `(2, 2)`). -/
theorem C8_chunk_grid (pr : ℕ) (hpr : pr ≤ 3) :
    (∀ den : BCDenoiser, den.getChunkSize = 3 * den.searchRadius) ∧
    ∀ (bins ns : ℕ) (thr : ℚ),
      (BCDenoiser.mk bins thr pr 4 ns).getChunkSize = 12 ∧
      (BCDenoiser.mk bins thr pr 4 ns).getChunkResolution (32, 32) = (3, 3) := by
  refine ⟨fun den => rfl, fun bins ns thr => ⟨rfl, ?_⟩⟩
  unfold BCDenoiser.getChunkResolution BCDenoiser.getChunkSize
  dsimp only
  interval_cases pr <;> norm_num

/-- Witness for C8, at `patchRadius = 1`. -/
theorem C8_chunk_grid_witness :
    1 ≤ 3 ∧ ((∀ den : BCDenoiser, den.getChunkSize = 3 * den.searchRadius) ∧
    ∀ (bins ns : ℕ) (thr : ℚ),
      (BCDenoiser.mk bins thr 1 4 ns).getChunkSize = 12 ∧
      (BCDenoiser.mk bins thr 1 4 ns).getChunkResolution (32, 32) = (3, 3)) :=
  ⟨by decide, C8_chunk_grid 1 (by decide)⟩

/-- C10: the marker table holds `(w * h) >> kMarkerRepBits` words (one bit
per pixel only when `2^kMarkerRepBits` divides `w * h`): at resolution
`(1, 1)` no word is allocated yet pixel `0` addresses word `0`, and at
`100x100` with the 64-bit marker word (`kMarkerRepBits = 6`) the `156`
allocated words cover only `9984` of the `10000` pixels, so `mark(9984)`
addresses word `156`, out of bounds. -/
theorem C10_marker_word_overflow :
    (PixelMarker.numOfAllocatedMarkers (1, 1) 3 = 0 ∧
     PixelMarker.markerWordIndex 0 3 = 0 ∧
     ¬ PixelMarker.markerWordIndex 0 3 <
        PixelMarker.numOfAllocatedMarkers (1, 1) 3) ∧
    (PixelMarker.numOfAllocatedMarkers (100, 100) 6 = 156 ∧
     9984 < 100 * 100 ∧
     PixelMarker.markerWordIndex 9984 6 = 156 ∧
     ¬ PixelMarker.markerWordIndex 9984 6 <
        PixelMarker.numOfAllocatedMarkers (100, 100) 6) := by
  decide

end Claims1

section InitStatistics

open SampleStatistics

/-- The cross-product accumulator centered at the sample mean. -/
theorem crossSum_centered {N : ℕ} (st : SampleStatistics N) (n p : ℕ)
    (a b : Fin N) (hn : (n : ℚ) ≠ 0) :
    st.crossSum n p a b -
      (n : ℚ)⁻¹ * st.sampleSum n p a * st.sampleSum n p b =
    ∑ i ∈ Finset.range n,
      (st.sample p i a - (n : ℚ)⁻¹ * st.sampleSum n p a) *
      (st.sample p i b - (n : ℚ)⁻¹ * st.sampleSum n p b) := by
  have key : ∀ i ∈ Finset.range n,
      (st.sample p i a - (n : ℚ)⁻¹ * st.sampleSum n p a) *
      (st.sample p i b - (n : ℚ)⁻¹ * st.sampleSum n p b) =
      st.sample p i a * st.sample p i b -
      ((n : ℚ)⁻¹ * st.sampleSum n p a) * st.sample p i b -
      ((n : ℚ)⁻¹ * st.sampleSum n p b) * st.sample p i a +
      ((n : ℚ)⁻¹ * st.sampleSum n p a) * ((n : ℚ)⁻¹ * st.sampleSum n p b) :=
    fun i _ => by ring
  rw [Finset.sum_congr rfl key]
  simp only [Finset.sum_add_distrib, Finset.sum_sub_distrib, ← Finset.mul_sum,
    Finset.sum_const, Finset.card_range, nsmul_eq_mul]
  unfold SampleStatistics.crossSum SampleStatistics.sampleSum
  set SA := ∑ i ∈ Finset.range n, st.sample p i a with hSA
  set SB := ∑ i ∈ Finset.range n, st.sample p i b with hSB
  set SC := ∑ i ∈ Finset.range n, st.sample p i a * st.sample p i b with hSC
  field_simp
  ring

/-- The Gram quadratic form identity behind positive semi-definiteness. -/
theorem quadForm_gram {N : ℕ} (n : ℕ) (d : ℕ → Fin N → ℚ) (v : Vec N) :
    ∑ a, v a * (∑ b, (∑ i ∈ Finset.range n, d i a * d i b) * v b) =
    ∑ i ∈ Finset.range n, (∑ a, v a * d i a) ^ 2 := by
  have h1 : ∀ i, (∑ a, v a * d i a) ^ 2 =
      ∑ a, ∑ b, (v a * d i a) * (v b * d i b) := by
    intro i
    rw [pow_two, Finset.sum_mul_sum]
  rw [Finset.sum_congr rfl (fun i _ => h1 i)]
  simp only [Finset.mul_sum, Finset.sum_mul]
  calc ∑ a, ∑ b, ∑ i ∈ Finset.range n, v a * ((d i a * d i b) * v b)
      = ∑ a, ∑ i ∈ Finset.range n, ∑ b, v a * ((d i a * d i b) * v b) :=
        Finset.sum_congr rfl (fun a _ => Finset.sum_comm)
    _ = ∑ i ∈ Finset.range n, ∑ a, ∑ b, v a * ((d i a * d i b) * v b) :=
        Finset.sum_comm
    _ = ∑ i ∈ Finset.range n, ∑ a, ∑ b, (v a * d i a) * (v b * d i b) := by
        refine Finset.sum_congr rfl (fun i _ => ?_)
        refine Finset.sum_congr rfl (fun a _ => ?_)
        exact Finset.sum_congr rfl (fun b _ => by ring)

/-- The covariance factor written uniformly through the cross-product
accumulator (the diagonal branch reads the sum-of-squares accumulator, which
is the same cross product). -/
theorem init_covarianceFactor_eq {N : ℕ} (n bins : ℕ)
    (st : SampleStatistics N) (p : ℕ) (a b : Fin N) :
    (Parameters.init N n bins st).covarianceFactor p a b =
      (st.crossSum n p a b -
        (n : ℚ)⁻¹ * st.sampleSum n p a * st.sampleSum n p b) *
      ((n : ℚ)⁻¹ * (((n - 1 : ℕ) : ℚ))⁻¹) := by
  unfold Parameters.init
  dsimp only
  split_ifs with h
  · subst h
    rfl
  · rfl

theorem crossSum_symm {N : ℕ} (st : SampleStatistics N) (n p : ℕ)
    (a b : Fin N) : st.crossSum n p a b = st.crossSum n p b a := by
  unfold SampleStatistics.crossSum
  exact Finset.sum_congr rfl (fun i _ => mul_comm _ _)

theorem init_covarianceFactor_symm {N : ℕ} (n bins : ℕ)
    (st : SampleStatistics N) (p : ℕ) (a b : Fin N) :
    (Parameters.init N n bins st).covarianceFactor p a b =
      (Parameters.init N n bins st).covarianceFactor p b a := by
  rw [init_covarianceFactor_eq, init_covarianceFactor_eq,
    crossSum_symm st n p a b]
  ring

/-- `toMatrix` of symmetric factors is the factor function itself. -/
theorem toMatrix_apply_symm {N : ℕ} (f : CovM N)
    (hsym : ∀ a b, f a b = f b a) (a b : Fin N) : toMatrix f a b = f a b := by
  unfold toMatrix
  rw [Matrix.of_apply]
  split_ifs with h
  · rfl
  · exact (hsym a b).symm ▸ rfl

end InitStatistics

section Claims2

/-- C2: after `Parameters::init` with sample count `n ≥ 2`, every pixel's
`sampleValue` is the accumulated sum divided by `n`; every covariance factor
for channel pair `(a, b)` is `(S_ab - S_a * S_b / n) / (n * (n - 1))`; the
reconstructed covariance matrix is symmetric and positive semi-definite; and
every histogram bin value is copied unchanged from the statistics table,
reindexed from pixel-major to bin-major layout. -/
theorem C2_init_statistics {N : ℕ} (n bins : ℕ) (st : SampleStatistics N)
    (hn : 2 ≤ n) :
    (∀ (p : ℕ) (a : Fin N), (Parameters.init N n bins st).sampleValue p a =
      st.sampleSum n p a / n) ∧
    (∀ (p : ℕ) (a b : Fin N),
      (Parameters.init N n bins st).covarianceFactor p a b =
        (st.crossSum n p a b - st.sampleSum n p a * st.sampleSum n p b / n) /
          ((n : ℚ) * ((n : ℚ) - 1))) ∧
    (∀ (p : ℕ) (a b : Fin N),
      toMatrix ((Parameters.init N n bins st).covarianceFactor p) a b =
      toMatrix ((Parameters.init N n bins st).covarianceFactor p) b a) ∧
    (∀ (p : ℕ) (v : Vec N),
      0 ≤ ∑ a, v a *
        ∑ b, toMatrix ((Parameters.init N n bins st).covarianceFactor p) a b * v b) ∧
    (∀ b p : ℕ, b < bins → p < st.resolution.1 * st.resolution.2 →
      (Parameters.init N n bins st).histogram
          (b * (st.resolution.1 * st.resolution.2) + p) =
        st.histogramTable (bins * p + b)) := by
  have hn0 : (n : ℚ) ≠ 0 := by
    have : (2 : ℚ) ≤ (n : ℚ) := by exact_mod_cast hn
    linarith
  have hn1cast : ((n - 1 : ℕ) : ℚ) = (n : ℚ) - 1 := by
    have : (1 : ℕ) ≤ n := by omega
    push_cast [Nat.cast_sub this]
    ring
  have hn1 : (n : ℚ) - 1 ≠ 0 := by
    have : (2 : ℚ) ≤ (n : ℚ) := by exact_mod_cast hn
    linarith
  refine ⟨?_, ?_, ?_, ?_, ?_⟩
  · intro p a
    unfold Parameters.init
    dsimp only
    rw [div_eq_inv_mul]
  · intro p a b
    rw [init_covarianceFactor_eq, hn1cast]
    field_simp
  · intro p a b
    rw [toMatrix_apply_symm _ (init_covarianceFactor_symm n bins st p) a b,
      toMatrix_apply_symm _ (init_covarianceFactor_symm n bins st p) b a]
    exact init_covarianceFactor_symm n bins st p a b
  · intro p v
    have hrw : ∀ a b : Fin N,
        toMatrix ((Parameters.init N n bins st).covarianceFactor p) a b =
        (∑ i ∈ Finset.range n,
          (st.sample p i a - (n : ℚ)⁻¹ * st.sampleSum n p a) *
          (st.sample p i b - (n : ℚ)⁻¹ * st.sampleSum n p b)) *
        ((n : ℚ)⁻¹ * (((n - 1 : ℕ) : ℚ))⁻¹) := by
      intro a b
      rw [toMatrix_apply_symm _ (init_covarianceFactor_symm n bins st p) a b,
        init_covarianceFactor_eq, crossSum_centered st n p a b hn0]
    have hstep : ∑ a, v a *
        ∑ b, toMatrix ((Parameters.init N n bins st).covarianceFactor p) a b * v b =
        ((n : ℚ)⁻¹ * (((n - 1 : ℕ) : ℚ))⁻¹) *
        ∑ a, v a * ∑ b, (∑ i ∈ Finset.range n,
          (st.sample p i a - (n : ℚ)⁻¹ * st.sampleSum n p a) *
          (st.sample p i b - (n : ℚ)⁻¹ * st.sampleSum n p b)) * v b := by
      rw [Finset.mul_sum]
      refine Finset.sum_congr rfl (fun a _ => ?_)
      have hinner : ∑ b, toMatrix
            ((Parameters.init N n bins st).covarianceFactor p) a b * v b =
          ((n : ℚ)⁻¹ * (((n - 1 : ℕ) : ℚ))⁻¹) *
          ∑ b, (∑ i ∈ Finset.range n,
            (st.sample p i a - (n : ℚ)⁻¹ * st.sampleSum n p a) *
            (st.sample p i b - (n : ℚ)⁻¹ * st.sampleSum n p b)) * v b := by
        rw [Finset.mul_sum]
        refine Finset.sum_congr rfl (fun b _ => ?_)
        rw [hrw a b]
        ring
      rw [hinner]
      ring
    rw [hstep, quadForm_gram n (fun i c => st.sample p i c - (n : ℚ)⁻¹ * st.sampleSum n p c) v]
    refine mul_nonneg (mul_nonneg (inv_nonneg.2 (by positivity))
      (inv_nonneg.2 (by positivity))) ?_
    exact Finset.sum_nonneg (fun i _ => sq_nonneg _)
  · intro b p hb hp
    unfold Parameters.init
    dsimp only
    have hcnt : 0 < st.resolution.1 * st.resolution.2 := by omega
    rw [show b * (st.resolution.1 * st.resolution.2) =
        (st.resolution.1 * st.resolution.2) * b from Nat.mul_comm b _,
      Nat.mul_add_mod, Nat.mod_eq_of_lt hp, Nat.mul_add_div hcnt,
      Nat.div_eq_of_lt hp, Nat.add_zero]

/-- A two-sample statistics instance used by the C2 witness. -/
def statsC2 : SampleStatistics 1 :=
  ⟨(1, 1), fun _ i _ => (i : ℚ), fun _ _ => 0⟩

/-- Witness for C2, at two accumulated samples. -/
theorem C2_init_statistics_witness :
    2 ≤ 2 ∧
    ((∀ (p : ℕ) (a : Fin 1), (Parameters.init 1 2 1 statsC2).sampleValue p a =
      statsC2.sampleSum 2 p a / 2) ∧
    (∀ (p : ℕ) (a b : Fin 1),
      (Parameters.init 1 2 1 statsC2).covarianceFactor p a b =
        (statsC2.crossSum 2 p a b -
          statsC2.sampleSum 2 p a * statsC2.sampleSum 2 p b / 2) /
          ((2 : ℚ) * ((2 : ℚ) - 1))) ∧
    (∀ (p : ℕ) (a b : Fin 1),
      toMatrix ((Parameters.init 1 2 1 statsC2).covarianceFactor p) a b =
      toMatrix ((Parameters.init 1 2 1 statsC2).covarianceFactor p) b a) ∧
    (∀ (p : ℕ) (v : Vec 1),
      0 ≤ ∑ a, v a *
        ∑ b, toMatrix ((Parameters.init 1 2 1 statsC2).covarianceFactor p) a b * v b) ∧
    (∀ b p : ℕ, b < 1 → p < statsC2.resolution.1 * statsC2.resolution.2 →
      (Parameters.init 1 2 1 statsC2).histogram
          (b * (statsC2.resolution.1 * statsC2.resolution.2) + p) =
        statsC2.histogramTable (1 * p + b))) := by
  have h := C2_init_statistics (N := 1) 2 1 statsC2 (by decide)
  refine ⟨by decide, ?_, ?_, ?_, ?_, ?_⟩
  · intro p a
    rw [h.1 p a]
    norm_num
  · intro p a b
    rw [h.2.1 p a b]
    norm_num
  · exact h.2.2.1
  · exact h.2.2.2.1
  · exact h.2.2.2.2

end Claims2

section Claims3

/-- A 2x2 high-resolution parameter set with two histogram bins whose
bin-major histogram table stores its own flat index, used to exhibit the
histogram-downscale indexing. -/
def paramsC3 : Parameters 1 :=
  ⟨(2, 2), 4, 2, fun _ => 0, fun i => fun _ => (i : ℚ), fun _ => 0⟩

/-- C3: `downscaleOf` halves the resolution and copies `histogramBins` and
`numOfSamples`; bin `0` of the histogram is correctly 2x2 box-averaged; but
for bin `1` the low-resolution value `5/2` is not the box average `11/2` of
the four high-resolution bin-1 entries: `downscaleAverage` receives the
bin-offset flat range, recomputes the low pixel from the offset index, and
reads the high-resolution table without the bin offset (clamped to the last
image row), i.e. from bin `0`. -/
theorem C3_histogram_downscale_bug :
    (paramsC3.downscaleOf.resolution = (1, 1) ∧
     paramsC3.downscaleOf.histogramBins = 2 ∧
     paramsC3.downscaleOf.numOfSamples = 4) ∧
    paramsC3.downscaleOf.histogram 0 0 =
      (4 : ℚ)⁻¹ * (paramsC3.histogram 0 0 + paramsC3.histogram 1 0 +
        paramsC3.histogram 2 0 + paramsC3.histogram 3 0) ∧
    paramsC3.downscaleOf.histogram 1 0 = 5 / 2 ∧
    (4 : ℚ)⁻¹ * (paramsC3.histogram 4 0 + paramsC3.histogram 5 0 +
      paramsC3.histogram 6 0 + paramsC3.histogram 7 0) = 11 / 2 ∧
    paramsC3.downscaleOf.histogram 1 0 ≠
      (4 : ℚ)⁻¹ * (paramsC3.histogram 4 0 + paramsC3.histogram 5 0 +
        paramsC3.histogram 6 0 + paramsC3.histogram 7 0) := by
  have hr2 : List.range 2 = [0, 1] := rfl
  have hr1 : List.range 1 = [0] := rfl
  refine ⟨⟨rfl, rfl, rfl⟩, ?_, ?_, ?_, ?_⟩ <;>
  · simp only [Parameters.downscaleOf, Parameters.downscaleAverage, paramsC3,
      hr2, hr1, List.foldl_cons, List.foldl_nil, updFn, Pi.smul_apply,
      Pi.add_apply, Pi.zero_apply, smul_eq_mul]
    norm_num

end Claims3

namespace BCDenoiser

section FallbackEffect

variable {N : ℕ} (den : BCDenoiser) (P : Parameters N) (m : Pixel)
variable (mask : Finset ℕ)

theorem mainFold_untouched (l : List Pixel) (s : DState N) (j : ℕ)
    (hj : ∀ o ∈ l, idx P.resolution.1 (den.targetPixel m o) ≠ j) :
    (l.foldl (mainPatchStep den P m mask) s).denoisedValue j =
      s.denoisedValue j ∧
    (l.foldl (mainPatchStep den P m mask) s).estimatesCounter j =
      s.estimatesCounter j := by
  induction l generalizing s with
  | nil => exact ⟨rfl, rfl⟩
  | cons a l ih =>
    rw [List.foldl_cons]
    have hstep : (mainPatchStep den P m mask s a).denoisedValue j =
        s.denoisedValue j ∧
        (mainPatchStep den P m mask s a).estimatesCounter j =
          s.estimatesCounter j := by
      unfold mainPatchStep
      dsimp only
      constructor <;>
        exact updFn_other _ _ _ _
          (fun he => hj a (List.mem_cons_self a l) (he ▸ rfl))
    have htail := ih (mainPatchStep den P m mask s a)
      (fun o ho => hj o (List.mem_cons_of_mem a ho))
    rw [htail.1, htail.2, hstep.1, hstep.2]
    exact ⟨rfl, rfl⟩

theorem mainFold_effect (l : List Pixel) (s : DState N) (hnd : l.Nodup)
    (hinj : ∀ o1 ∈ l, ∀ o2 ∈ l,
      idx P.resolution.1 (den.targetPixel m o1) =
        idx P.resolution.1 (den.targetPixel m o2) → o1 = o2)
    {o : Pixel} (ho : o ∈ l) :
    (l.foldl (mainPatchStep den P m mask) s).denoisedValue
        (idx P.resolution.1 (den.targetPixel m o)) =
      s.denoisedValue (idx P.resolution.1 (den.targetPixel m o)) +
        ((mask.card : ℚ))⁻¹ •
          sumSimilar den P.resolution.1 (den.makeSearchWindow P.resolution m)
            o mask P.sampleValue ∧
    (l.foldl (mainPatchStep den P m mask) s).estimatesCounter
        (idx P.resolution.1 (den.targetPixel m o)) =
      s.estimatesCounter (idx P.resolution.1 (den.targetPixel m o)) + 1 := by
  induction l generalizing s with
  | nil => cases ho
  | cons a l ih =>
    have hnd2 := (List.nodup_cons.1 hnd).2
    have hna := (List.nodup_cons.1 hnd).1
    rw [List.foldl_cons]
    rcases List.mem_cons.1 ho with rfl | ho
    · have huntouched := mainFold_untouched den P m mask l
        (mainPatchStep den P m mask s o)
        (idx P.resolution.1 (den.targetPixel m o))
        (fun r hr he =>
          hna (hinj r (List.mem_cons_of_mem o hr) o (List.mem_cons_self o l)
            he ▸ hr))
      rw [huntouched.1, huntouched.2]
      unfold mainPatchStep
      dsimp only
      rw [updFn_same, updFn_same]
      exact ⟨rfl, rfl⟩
    · have hne : idx P.resolution.1 (den.targetPixel m a) ≠
          idx P.resolution.1 (den.targetPixel m o) := by
        intro he
        exact hna ((hinj a (List.mem_cons_self a l) o
          (List.mem_cons_of_mem a ho) he) ▸ ho)
      have hstep : (mainPatchStep den P m mask s a).denoisedValue
            (idx P.resolution.1 (den.targetPixel m o)) =
          s.denoisedValue (idx P.resolution.1 (den.targetPixel m o)) ∧
          (mainPatchStep den P m mask s a).estimatesCounter
            (idx P.resolution.1 (den.targetPixel m o)) =
          s.estimatesCounter (idx P.resolution.1 (den.targetPixel m o)) := by
        unfold mainPatchStep
        dsimp only
        constructor <;> exact updFn_other _ _ _ _ (fun he => hne he.symm)
      have hih := ih (mainPatchStep den P m mask s a) hnd2
        (fun o1 h1 o2 h2 => hinj o1 (List.mem_cons_of_mem a h1) o2
          (List.mem_cons_of_mem a h2)) ho
      rw [hih.1, hih.2, hstep.1, hstep.2]
      exact ⟨rfl, rfl⟩

/-- Patch targets of a fixed main pixel are injective in the offset. -/
theorem targetPixel_offsets_inj
    (h1 : den.patchRadius ≤ m.1) (h2 : m.1 + den.patchRadius < P.resolution.1)
    (h3 : den.patchRadius ≤ m.2) (h4 : m.2 + den.patchRadius < P.resolution.2) :
    ∀ o1 ∈ den.patchOffsets, ∀ o2 ∈ den.patchOffsets,
      idx P.resolution.1 (den.targetPixel m o1) =
        idx P.resolution.1 (den.targetPixel m o2) → o1 = o2 := by
  intro o1 ho1 o2 ho2 he
  rw [mem_patchOffsets] at ho1 ho2
  have hx1 : (den.targetPixel m o1).1 < P.resolution.1 := by
    unfold targetPixel
    dsimp only
    omega
  have hx2 : (den.targetPixel m o2).1 < P.resolution.1 := by
    unfold targetPixel
    dsimp only
    omega
  have hpe := idx_inj hx1 hx2 he
  unfold targetPixel at hpe
  have he1 : m.1 + o1.1 - den.patchRadius = m.1 + o2.1 - den.patchRadius :=
    congrArg Prod.fst hpe
  have he2 : m.2 + o1.2 - den.patchRadius = m.2 + o2.2 - den.patchRadius :=
    congrArg Prod.snd hpe
  have : o1.1 = o2.1 := by omega
  have : o1.2 = o2.2 := by omega
  exact Prod.ext (by omega) (by omega)

end FallbackEffect

end BCDenoiser

section Claims67

open BCDenoiser

/-- C6: for a main pixel at least `patchRadius` from each image border and a
non-negative configured threshold, the mask returned by
`selectSimilarPatches` has a search-window pixel's bit set iff its distance
— exactly `0` for the main pixel itself, the patch histogram distance to
the main pixel's patch otherwise — is at most the threshold; in particular
the main pixel's own bit is always set. -/
theorem C6_similar_mask {N : ℕ} (den : BCDenoiser) (P : Parameters N)
    (m : Pixel)
    (h1 : den.patchRadius ≤ m.1) (h2 : m.1 + den.patchRadius < P.resolution.1)
    (h3 : den.patchRadius ≤ m.2) (h4 : m.2 + den.patchRadius < P.resolution.2)
    (hth : 0 ≤ den.histogramDistanceThreshold) :
    (∀ q ∈ (den.makeSearchWindow P.resolution m).pixels,
      ((den.makeSearchWindow P.resolution m).getIndex q ∈
          den.selectSimilarPatches P m ↔
        (if q = m then 0 else den.calcHistogramPatchDistance P m q) ≤
          den.histogramDistanceThreshold)) ∧
    (den.makeSearchWindow P.resolution m).getIndex m ∈
      den.selectSimilarPatches P m :=
  ⟨fun _ hq => den.getIndex_mem_selectSimilarPatches P hq,
   den.main_mem_selectSimilarPatches P h1 h2 h3 h4 hth⟩

/-- Witness for C6, at the one-pixel configuration with main pixel `(0,0)`. -/
theorem C6_similar_mask_witness :
    (denW.patchRadius ≤ 0 ∧ 0 + denW.patchRadius < paramsW.resolution.1 ∧
     denW.patchRadius ≤ 0 ∧ 0 + denW.patchRadius < paramsW.resolution.2 ∧
     0 ≤ denW.histogramDistanceThreshold) ∧
    ((∀ q ∈ (denW.makeSearchWindow paramsW.resolution ((0, 0) : Pixel)).pixels,
      ((denW.makeSearchWindow paramsW.resolution ((0, 0) : Pixel)).getIndex q ∈
          denW.selectSimilarPatches paramsW ((0, 0) : Pixel) ↔
        (if q = ((0, 0) : Pixel) then 0
         else denW.calcHistogramPatchDistance paramsW ((0, 0) : Pixel) q) ≤
          denW.histogramDistanceThreshold)) ∧
    (denW.makeSearchWindow paramsW.resolution ((0, 0) : Pixel)).getIndex
        ((0, 0) : Pixel) ∈
      denW.selectSimilarPatches paramsW ((0, 0) : Pixel)) :=
  ⟨⟨by decide, by decide, by decide, by decide, by decide⟩,
   C6_similar_mask denW paramsW (0, 0) (by decide) (by decide) (by decide)
     (by decide) (by decide)⟩

/-- C7: `denoisePixels` takes the fallback `denoiseOnlyMainPatch` iff the
number of similar patches is at most `getPatchDimension` (which equals
`kDimension * (2*patchRadius+1)^2`), otherwise `denoiseSelectedPatches`;
and in the fallback, for every patch offset, the value accumulated into
`denoisedValue` at the main pixel's offset position — whose counter is
bumped by exactly one — is `1/mask.count()` times the sum of the raw sample
values at that offset over the mask-marked window pixels (the unweighted
average, the mask size being the number of marked window pixels). -/
theorem C7_fallback_branch {N : ℕ} (den : BCDenoiser) (P : Parameters N)
    (m : Pixel) (s : DState N)
    (h1 : den.patchRadius ≤ m.1) (h2 : m.1 + den.patchRadius < P.resolution.1)
    (h3 : den.patchRadius ≤ m.2) (h4 : m.2 + den.patchRadius < P.resolution.2) :
    (den.getPatchDimension N = N * (2 * den.patchRadius + 1) ^ 2) ∧
    ((den.selectSimilarPatches P m).card ≤ den.getPatchDimension N →
      den.denoisePixels P m s =
        den.denoiseOnlyMainPatch P m (den.selectSimilarPatches P m) s) ∧
    (den.getPatchDimension N < (den.selectSimilarPatches P m).card →
      den.denoisePixels P m s =
        den.denoiseSelectedPatches P m (den.selectSimilarPatches P m) s) ∧
    ((den.selectSimilarPatches P m).card =
      ((den.makeSearchWindow P.resolution m).pixels.filter
        (fun q => decide (den.similarCond P m q))).length) ∧
    (∀ o ∈ den.patchOffsets,
      (den.denoiseOnlyMainPatch P m (den.selectSimilarPatches P m) s).denoisedValue
          (idx P.resolution.1 (den.targetPixel m o)) =
        s.denoisedValue (idx P.resolution.1 (den.targetPixel m o)) +
          (((den.selectSimilarPatches P m).card : ℚ))⁻¹ •
            sumSimilar den P.resolution.1
              (den.makeSearchWindow P.resolution m) o
              (den.selectSimilarPatches P m) P.sampleValue ∧
      (den.denoiseOnlyMainPatch P m (den.selectSimilarPatches P m) s).estimatesCounter
          (idx P.resolution.1 (den.targetPixel m o)) =
        s.estimatesCounter (idx P.resolution.1 (den.targetPixel m o)) + 1) := by
  refine ⟨rfl, ?_, ?_, den.selectSimilarPatches_card P m, ?_⟩
  · intro hle
    unfold denoisePixels
    dsimp only
    rw [if_pos hle]
  · intro hlt
    unfold denoisePixels
    dsimp only
    rw [if_neg (not_le.2 hlt)]
  · intro o ho
    exact mainFold_effect den P m (den.selectSimilarPatches P m)
      den.patchOffsets s (den.patchOffsets_nodup)
      (den.targetPixel_offsets_inj P m h1 h2 h3 h4) ho

/-- Witness for C7, at the one-pixel configuration with main pixel `(0,0)`. -/
theorem C7_fallback_branch_witness :
    (denW.patchRadius ≤ 0 ∧ 0 + denW.patchRadius < paramsW.resolution.1 ∧
     denW.patchRadius ≤ 0 ∧ 0 + denW.patchRadius < paramsW.resolution.2) ∧
    (denW.getPatchDimension 1 = 1 * (2 * denW.patchRadius + 1) ^ 2 ∧
     ((denW.selectSimilarPatches paramsW ((0, 0) : Pixel)).card ≤
        denW.getPatchDimension 1 →
      denW.denoisePixels paramsW ((0, 0) : Pixel) (initialDState 1) =
        denW.denoiseOnlyMainPatch paramsW ((0, 0) : Pixel)
          (denW.selectSimilarPatches paramsW ((0, 0) : Pixel))
          (initialDState 1))) :=
  ⟨⟨by decide, by decide, by decide, by decide⟩,
   by
    have h := C7_fallback_branch denW paramsW (0, 0) (initialDState 1)
      (by decide) (by decide) (by decide) (by decide)
    exact ⟨h.1, h.2.1⟩⟩

end Claims67

section WriteFold

variable {M : Type}

theorem foldl_updFn_untouched (l : List Pixel) (c : Pixel → Prop)
    [DecidablePred c] (g : Pixel → ℕ) (val : Pixel → M) (st0 : ℕ → M) (j : ℕ)
    (hj : ∀ q ∈ l, c q → g q ≠ j) :
    l.foldl (fun st q => if c q then updFn st (g q) (val q) else st) st0 j =
      st0 j := by
  induction l generalizing st0 with
  | nil => rfl
  | cons a l ih =>
    rw [List.foldl_cons]
    rw [ih _ (fun q hq => hj q (List.mem_cons_of_mem a hq))]
    by_cases ha : c a
    · rw [if_pos ha]
      exact updFn_other _ _ _ _ (fun he => hj a (List.mem_cons_self a l) ha he.symm)
    · rw [if_neg ha]

theorem foldl_updFn_hit (l : List Pixel) (c : Pixel → Prop) [DecidablePred c]
    (g : Pixel → ℕ) (val : Pixel → M) (st0 : ℕ → M) (vv : M)
    (hval : ∀ q ∈ l, c q → val q = vv) :
    ∀ q0 ∈ l, c q0 →
      l.foldl (fun st q => if c q then updFn st (g q) (val q) else st) st0
        (g q0) = vv := by
  induction l generalizing st0 with
  | nil => intro q0 hq0; cases hq0
  | cons a l ih =>
    intro q0 hq0 hc0
    rw [List.foldl_cons]
    rcases List.mem_cons.1 hq0 with rfl | hq0
    · by_cases hrest : ∃ r ∈ l, c r ∧ g r = g q0
      · obtain ⟨r, hr, hcr, hgr⟩ := hrest
        rw [← hgr]
        exact ih _ (fun q hq => hval q (List.mem_cons_of_mem q0 hq)) r hr hcr
      · push_neg at hrest
        rw [foldl_updFn_untouched l c g val _ (g q0) hrest]
        rw [if_pos hc0, updFn_same]
        exact hval q0 (List.mem_cons_self q0 l) hc0
    · exact ih _ (fun q hq => hval q (List.mem_cons_of_mem a hq)) q0 hq0 hc0

end WriteFold

namespace BCDenoiser

section ConstantTables

variable {N : ℕ} (den : BCDenoiser) (w : ℕ) (win : RenderingTile)
variable (mask : Finset ℕ) (o : Pixel) (v : Vec N)

/-- The guarded window sum of a table that is constant on the mask targets. -/
theorem sumSimilar_const (table : ℕ → Vec N)
    (hconst : ∀ q ∈ win.pixels, win.getIndex q ∈ mask →
      table (idx w (den.targetPixel q o)) = v) :
    sumSimilar den w win o mask table =
      ((win.pixels.filter
        (fun q => decide (win.getIndex q ∈ mask))).length) • v := by
  unfold sumSimilar
  rw [foldl_guarded_add win.pixels (fun q => win.getIndex q ∈ mask)
    (fun q => table (idx w (den.targetPixel q o))) 0, zero_add]
  refine sum_map_eq_length_smul _ _ _ ?_
  intro q hq
  rcases List.mem_filter.1 hq with ⟨hq1, hq2⟩
  exact hconst q hq1 (of_decide_eq_true hq2)

/-- The empirical mean of a table that is constant on the mask targets,
when the mask size agrees with the number of marked window pixels and is
nonzero. -/
theorem calcEmpiricalMean_const (table : ℕ → Vec N)
    (hconst : ∀ q ∈ win.pixels, win.getIndex q ∈ mask →
      table (idx w (den.targetPixel q o)) = v)
    (hcard : ((win.pixels.filter
      (fun q => decide (win.getIndex q ∈ mask))).length) = mask.card)
    (hpos : mask.card ≠ 0) :
    calcEmpiricalMean den w win o mask table = v := by
  unfold calcEmpiricalMean
  rw [sumSimilar_const den w win mask o v table hconst, hcard,
    ← Nat.cast_smul_eq_nsmul ℚ mask.card v, smul_smul,
    inv_mul_cancel₀ (by exact_mod_cast hpos), one_smul]

/-- A staged value written by `calcStagingDenoisedValue` at a mask target. -/
theorem calcStaging_at_target (expectedMean : Vec N)
    (covarianceMean expectedCovariance : Matrix (Fin N) (Fin N) ℚ)
    (valueTable stagingTable : ℕ → Vec N)
    (hval : ∀ q ∈ win.pixels, win.getIndex q ∈ mask →
      valueTable (idx w (den.targetPixel q o)) -
        covarianceMean.mulVec ((inverseMatrix expectedCovariance).mulVec
          (valueTable (idx w (den.targetPixel q o)) - expectedMean)) = v)
    {q0 : Pixel} (hq0 : q0 ∈ win.pixels)
    (hc : win.getIndex q0 ∈ mask) :
    calcStagingDenoisedValue den w win o mask expectedMean covarianceMean
      expectedCovariance valueTable stagingTable
      (idx w (den.targetPixel q0 o)) = v := by
  unfold calcStagingDenoisedValue
  exact foldl_updFn_hit win.pixels (fun q => win.getIndex q ∈ mask)
    (fun q => idx w (den.targetPixel q o))
    (fun q => valueTable (idx w (den.targetPixel q o)) -
      covarianceMean.mulVec ((inverseMatrix expectedCovariance).mulVec
        (valueTable (idx w (den.targetPixel q o)) - expectedMean)))
    stagingTable v hval q0 hq0 hc

/-- The shrinkage formula is the identity on a constant table whose mean is
that same constant: the centered deviation vanishes, so whatever the
(possibly singular) inverted matrix is, it acts on the zero vector. -/
theorem staging_value_const (covarianceMean expectedCovariance :
    Matrix (Fin N) (Fin N) ℚ) (valueTable : ℕ → Vec N) (i : ℕ)
    (hv : valueTable i = v) :
    valueTable i - covarianceMean.mulVec
      ((inverseMatrix expectedCovariance).mulVec (valueTable i - v)) = v := by
  rw [hv, sub_self, Matrix.mulVec_zero, Matrix.mulVec_zero, sub_zero]

end ConstantTables

end BCDenoiser

/-- The constant-input pass invariant: the accumulated denoised value of
every pixel is its estimate count times the constant input value. -/
def ConstJ {N : ℕ} (v : Vec N) (s : DState N) : Prop :=
  ∀ (i : ℕ) (a : Fin N),
    s.denoisedValue i a = (s.estimatesCounter i : ℚ) * v a

theorem initial_ConstJ {N : ℕ} (v : Vec N) : ConstJ v (initialDState N) := by
  intro i a
  show (0 : Vec N) a = ((0 : ℕ) : ℚ) * v a
  rw [Pi.zero_apply]
  push_cast
  ring

namespace BCDenoiser

section ConstJLemmas

variable {N : ℕ} (den : BCDenoiser) (w : ℕ) (win : RenderingTile)
variable (mask : Finset ℕ) (o : Pixel) (v : Vec N)

theorem accumStep_ConstJ (s : DState N) (q : Pixel)
    (hst : win.getIndex q ∈ mask →
      s.staging (idx w (den.targetPixel q o)) = v)
    (hJ : ConstJ v s) : ConstJ v (accumStep den w win mask o s q) := by
  unfold accumStep
  by_cases hm : win.getIndex q ∈ mask
  · rw [if_pos hm]
    intro i a
    dsimp only
    unfold updFn
    by_cases hi : i = idx w (den.targetPixel q o)
    · rw [if_pos hi, if_pos hi, Pi.add_apply,
        hJ (idx w (den.targetPixel q o)) a, hst hm]
      push_cast
      ring
    · rw [if_neg hi, if_neg hi]
      exact hJ i a
  · rw [if_neg hm]
    exact hJ

theorem accumFold_ConstJ (l : List Pixel) (s : DState N)
    (hst : ∀ q ∈ l, win.getIndex q ∈ mask →
      s.staging (idx w (den.targetPixel q o)) = v)
    (hJ : ConstJ v s) :
    ConstJ v (l.foldl (accumStep den w win mask o) s) := by
  induction l generalizing s with
  | nil => exact hJ
  | cons q l ih =>
    rw [List.foldl_cons]
    refine ih _ ?_ (accumStep_ConstJ den w win mask o v s q
      (hst q (List.mem_cons_self q l)) hJ)
    intro r hr hmr
    rw [accumStep_staging]
    exact hst r (List.mem_cons_of_mem q hr) hmr

/-- Staged values of a `calcStagingDenoisedValue` call whose value table is
constant on the mask targets and whose mean argument is that constant. -/
theorem calcStaging_const_of_mean (expectedMean : Vec N)
    (covarianceMean expectedCovariance : Matrix (Fin N) (Fin N) ℚ)
    (valueTable stagingTable : ℕ → Vec N) (hmean : expectedMean = v)
    (hvt : ∀ q ∈ win.pixels, win.getIndex q ∈ mask →
      valueTable (idx w (den.targetPixel q o)) = v) :
    ∀ q0 ∈ win.pixels, win.getIndex q0 ∈ mask →
      calcStagingDenoisedValue den w win o mask expectedMean covarianceMean
        expectedCovariance valueTable stagingTable
        (idx w (den.targetPixel q0 o)) = v := by
  intro q0 hq0 hc
  refine calcStaging_at_target den w win mask o v expectedMean covarianceMean
    expectedCovariance valueTable stagingTable ?_ hq0 hc
  intro r hr hmr
  rw [hmean]
  exact staging_value_const v covarianceMean
    expectedCovariance valueTable _ (hvt r hr hmr)

end ConstJLemmas

section ConstJSteps

variable {N : ℕ} (den : BCDenoiser) (P : Parameters N) (m : Pixel)
variable (mask : Finset ℕ) (v : Vec N)

/-- Every staged value produced by one `selectedStep` offset is the constant
input value. -/
theorem selectedStaging_at_target (o : Pixel) (stg : ℕ → Vec N)
    (hsv : ∀ i, P.sampleValue i = v)
    (hcard : (((den.makeSearchWindow P.resolution m).pixels.filter
      (fun q => decide ((den.makeSearchWindow P.resolution m).getIndex q ∈
        mask))).length) = mask.card)
    (hpos : mask.card ≠ 0) :
    ∀ q ∈ (den.makeSearchWindow P.resolution m).pixels,
      (den.makeSearchWindow P.resolution m).getIndex q ∈ mask →
      selectedStaging den P m mask o stg
        (idx P.resolution.1 (den.targetPixel q o)) = v := by
  intro q hq hm
  have hMean1 : calcEmpiricalMean den P.resolution.1
      (den.makeSearchWindow P.resolution m) o mask P.sampleValue = v :=
    calcEmpiricalMean_const den P.resolution.1 _ mask o v P.sampleValue
      (fun r _ _ => hsv _) hcard hpos
  unfold selectedStaging
  have hst1 := calcStaging_const_of_mean den P.resolution.1
    (den.makeSearchWindow P.resolution m) mask o v
    (calcEmpiricalMean den P.resolution.1
      (den.makeSearchWindow P.resolution m) o mask P.sampleValue)
    (toMatrix (calcEmpiricalMean den P.resolution.1
      (den.makeSearchWindow P.resolution m) o mask P.covarianceFactor))
    (toMatrix (calcEmpiricalMean den P.resolution.1
        (den.makeSearchWindow P.resolution m) o mask P.covarianceFactor) +
      (toMatrix (calcEmpiricalCovarianceMatrix den P.resolution.1
          (den.makeSearchWindow P.resolution m) o mask P.sampleValue
          (calcEmpiricalMean den P.resolution.1
            (den.makeSearchWindow P.resolution m) o mask P.sampleValue)) -
        toMatrix (calcEmpiricalMean den P.resolution.1
          (den.makeSearchWindow P.resolution m) o mask P.covarianceFactor)))
    P.sampleValue stg hMean1 (fun r _ _ => hsv _)
  have hMean2 := calcEmpiricalMean_const den P.resolution.1
    (den.makeSearchWindow P.resolution m) mask o v _ hst1 hcard hpos
  exact calcStaging_const_of_mean den P.resolution.1
    (den.makeSearchWindow P.resolution m) mask o v _ _ _ P.sampleValue _
    hMean2 (fun r _ _ => hsv _) q hq hm

theorem selectedStep_ConstJ (o : Pixel) (s : DState N)
    (hsv : ∀ i, P.sampleValue i = v)
    (hcard : (((den.makeSearchWindow P.resolution m).pixels.filter
      (fun q => decide ((den.makeSearchWindow P.resolution m).getIndex q ∈
        mask))).length) = mask.card)
    (hpos : mask.card ≠ 0) (hJ : ConstJ v s) :
    ConstJ v (selectedStep den P m mask s o) := by
  unfold selectedStep accumulateOffset
  refine accumFold_ConstJ den P.resolution.1
    (den.makeSearchWindow P.resolution m) mask o v
    (den.makeSearchWindow P.resolution m).pixels
    { s with staging := selectedStaging den P m mask o s.staging } ?_ hJ
  intro q hq hm
  exact selectedStaging_at_target den P m mask v o s.staging hsv hcard hpos
    q hq hm

theorem mainPatchStep_ConstJ (o : Pixel) (s : DState N)
    (hsv : ∀ i, P.sampleValue i = v)
    (hcard : (((den.makeSearchWindow P.resolution m).pixels.filter
      (fun q => decide ((den.makeSearchWindow P.resolution m).getIndex q ∈
        mask))).length) = mask.card)
    (hpos : mask.card ≠ 0) (hJ : ConstJ v s) :
    ConstJ v (mainPatchStep den P m mask s o) := by
  have hEst : calcEmpiricalMean den P.resolution.1
      (den.makeSearchWindow P.resolution m) o mask P.sampleValue = v :=
    calcEmpiricalMean_const den P.resolution.1 _ mask o v P.sampleValue
      (fun r _ _ => hsv _) hcard hpos
  unfold calcEmpiricalMean at hEst
  unfold mainPatchStep
  intro i a
  dsimp only
  unfold updFn
  by_cases hi : i = idx P.resolution.1 (den.targetPixel m o)
  · rw [if_pos hi, if_pos hi, Pi.add_apply,
      hJ (idx P.resolution.1 (den.targetPixel m o)) a, hEst]
    push_cast
    ring
  · rw [if_neg hi, if_neg hi]
    exact hJ i a

theorem denoisePixels_ConstJ (s : DState N)
    (h1 : den.patchRadius ≤ m.1) (h2 : m.1 + den.patchRadius < P.resolution.1)
    (h3 : den.patchRadius ≤ m.2) (h4 : m.2 + den.patchRadius < P.resolution.2)
    (hth : 0 ≤ den.histogramDistanceThreshold)
    (hsv : ∀ i, P.sampleValue i = v) (hJ : ConstJ v s) :
    ConstJ v (den.denoisePixels P m s) := by
  have hcard := den.selectSimilarPatches_filter_card P m
  have hpos : (den.selectSimilarPatches P m).card ≠ 0 :=
    (den.selectSimilarPatches_card_pos P h1 h2 h3 h4 hth).ne'
  unfold denoisePixels denoiseOnlyMainPatch denoiseSelectedPatches
  dsimp only
  split
  · have : ∀ (l : List Pixel) (s : DState N), ConstJ v s →
        ConstJ v (l.foldl
          (mainPatchStep den P m (den.selectSimilarPatches P m)) s) := by
      intro l
      induction l with
      | nil => exact fun s h => h
      | cons o l ih =>
        intro s h
        rw [List.foldl_cons]
        exact ih _ (mainPatchStep_ConstJ den P m _ v o s hsv hcard hpos h)
    exact this _ _ hJ
  · have : ∀ (l : List Pixel) (s : DState N), ConstJ v s →
        ConstJ v (l.foldl
          (selectedStep den P m (den.selectSimilarPatches P m)) s) := by
      intro l
      induction l with
      | nil => exact fun s h => h
      | cons o l ih =>
        intro s h
        rw [List.foldl_cons]
        exact ih _ (selectedStep_ConstJ den P m _ v o s hsv hcard hpos h)
    exact this _ _ hJ

theorem denoiseChunkPixel_ConstJ (s : DState N)
    (h1 : den.patchRadius ≤ m.1) (h2 : m.1 + den.patchRadius < P.resolution.1)
    (h3 : den.patchRadius ≤ m.2) (h4 : m.2 + den.patchRadius < P.resolution.2)
    (hth : 0 ≤ den.histogramDistanceThreshold)
    (hsv : ∀ i, P.sampleValue i = v) (hJ : ConstJ v s) :
    ConstJ v (den.denoiseChunkPixel P s m) := by
  unfold denoiseChunkPixel
  split
  · exact hJ
  · exact denoisePixels_ConstJ den P m v s h1 h2 h3 h4 hth hsv hJ

end ConstJSteps

/-- A full pass over a constant-valued parameter set keeps the accumulated
denoised value equal to the estimate count times the constant. -/
theorem denoiseScale_ConstJ {N : ℕ} (den : BCDenoiser) (P : Parameters N)
    (v : Vec N)
    (hw : 2 * den.patchRadius + 1 ≤ P.resolution.1)
    (hh : 2 * den.patchRadius + 1 ≤ P.resolution.2)
    (hth : 0 ≤ den.histogramDistanceThreshold)
    (hsv : ∀ i, P.sampleValue i = v) :
    ConstJ v (den.denoiseScale P) := by
  rw [den.denoiseScale_eq P]
  have hfold : ∀ (l : List Pixel), (∀ m ∈ l, den.inRegion P.resolution m) →
      ∀ (s : DState N), ConstJ v s →
      ConstJ v (l.foldl (den.denoiseChunkPixel P) s) := by
    intro l
    induction l with
    | nil => exact fun _ s h => h
    | cons m l ih =>
      intro hreg s h
      rw [List.foldl_cons]
      obtain ⟨h1, h2, h3, h4⟩ := hreg m (List.mem_cons_self m l)
      exact ih (fun r hr => hreg r (List.mem_cons_of_mem m hr)) _
        (denoiseChunkPixel_ConstJ den P m v s h1 h2 h3 h4 hth hsv h)
  exact hfold _ (fun r hr => den.scaleMains_inRegion hw hh hr) _
    (initial_ConstJ v)

end BCDenoiser

section Claims5

open BCDenoiser

theorem foldl_range_updFn {M : Type} (n : ℕ) (val : ℕ → M) (d0 : ℕ → M) :
    ∀ j < n, (List.range n).foldl (fun d i => updFn d i (val i)) d0 j = val j := by
  induction n generalizing d0 with
  | zero => intro j hj; omega
  | succ n ih =>
    intro j hj
    rw [List.range_succ, List.foldl_append, List.foldl_cons, List.foldl_nil]
    by_cases hjn : j = n
    · subst hjn
      exact updFn_same _ _ _
    · rw [updFn_other _ _ _ _ hjn]
      exact ih d0 j (by omega)

/-- When the written-back scale has the full statistics resolution,
`aggregateFinal` is the identity remapping on flat pixel indices. -/
theorem aggregateFinal_self {N : ℕ} (P : Parameters N) (dv d0 : ℕ → Vec N) :
    ∀ j < P.resolution.1 * P.resolution.2,
      BCDenoiser.aggregateFinal P P.resolution dv d0 j = dv j := by
  intro j hj
  unfold BCDenoiser.aggregateFinal
  dsimp only
  rw [show (fun (d : ℕ → Vec N) (pixelIndex : ℕ) =>
      updFn d (pixelIndex % P.resolution.1 +
        P.resolution.1 * (pixelIndex / P.resolution.1)) (dv pixelIndex)) =
      fun (d : ℕ → Vec N) (pixelIndex : ℕ) => updFn d pixelIndex (dv pixelIndex)
    from funext fun d => funext fun i => by rw [Nat.mod_add_div]]
  exact foldl_range_updFn _ dv d0 j hj

/-- The constant-color sample statistics of the end-to-end scenario: a
64x64 RGB image, 16 accumulated samples all equal to `(1/2, 1/2, 1/2)` per
pixel, all histogram mass in bin `0` (pixel-major layout with 8 bins). -/
def constStats : SampleStatistics 3 :=
  ⟨(64, 64), fun _ _ => fun _ => 1 / 2,
   fun i => if i % 8 = 0 then (fun _ => 16) else (fun _ => 0)⟩

/-- The denoiser configuration of the end-to-end scenario: 8 histogram
bins, zero distance threshold, patch radius 1, search-window radius 3, one
scale. -/
def den5 : BCDenoiser := ⟨8, 0, 1, 3, 1⟩

theorem init_constStats_sampleValue :
    ∀ i : ℕ, (Parameters.init 3 16 8 constStats).sampleValue i =
      fun _ => 1 / 2 := by
  intro i
  funext a
  unfold Parameters.init
  dsimp only
  unfold SampleStatistics.sampleSum
  unfold constStats
  dsimp only
  rw [Finset.sum_const, Finset.card_range, nsmul_eq_mul]
  norm_num

/-- The constant scenario's pass state satisfies the constant invariant. -/
theorem constScenario_ConstJ :
    ConstJ (fun _ => 1 / 2) (BCDenoiser.denoiseScale den5
      (Parameters.init 3 16 8 constStats)) :=
  BCDenoiser.denoiseScale_ConstJ den5 (Parameters.init 3 16 8 constStats)
    (fun _ => 1 / 2) (by decide) (by decide) (by decide)
    init_constStats_sampleValue

/-- Every pixel of the constant scenario receives at least one estimate. -/
theorem constScenario_counter :
    ∀ p : Pixel, p.1 < 64 → p.2 < 64 →
      1 ≤ (BCDenoiser.denoiseScale den5
        (Parameters.init 3 16 8 constStats)).estimatesCounter (idx 64 p) := by
  have hres1 : (Parameters.init 3 16 8 constStats).resolution.1 = 64 := rfl
  have hres2 : (Parameters.init 3 16 8 constStats).resolution.2 = 64 := rfl
  have hcount := C4_pass_covers_every_pixel den5
    (Parameters.init 3 16 8 constStats) (by decide) (by decide) (by decide)
    (by decide)
  intro p hp1 hp2
  have hc := hcount.1 p (by rw [hres1]; exact hp1) (by rw [hres2]; exact hp2)
  rwa [hres1] at hc

/-- The aggregated value of the constant scenario at an in-range pixel. -/
theorem constScenario_aggregate (p : Pixel) (hidx : idx 64 p < 64 * 64)
    (a : Fin 3)
    (hJ : ConstJ (fun _ => 1 / 2) (BCDenoiser.denoiseScale den5
      (Parameters.init 3 16 8 constStats)))
    (hcne : (((BCDenoiser.denoiseScale den5
      (Parameters.init 3 16 8 constStats)).estimatesCounter (idx 64 p) : ℕ) :
      ℚ) ≠ 0) :
    (BCDenoiser.aggregate (Parameters.init 3 16 8 constStats).resolution
        (BCDenoiser.denoiseScale den5
          (Parameters.init 3 16 8 constStats))).denoisedValue (idx 64 p) a
      = 1 / 2 := by
  unfold BCDenoiser.aggregate
  dsimp only
  rw [if_pos (show idx 64 p <
    (Parameters.init 3 16 8 constStats).resolution.1 *
      (Parameters.init 3 16 8 constStats).resolution.2 from hidx)]
  rw [Pi.smul_apply, smul_eq_mul, hJ (idx 64 p) a, ← mul_assoc,
    inv_mul_cancel₀ hcne, one_mul]

/-- The written-back value of the constant scenario at an in-range pixel. -/
theorem constScenario_out (p : Pixel) (hidx : idx 64 p < 64 * 64) (a : Fin 3)
    (hJ : ConstJ (fun _ => 1 / 2) (BCDenoiser.denoiseScale den5
      (Parameters.init 3 16 8 constStats)))
    (hcne : (((BCDenoiser.denoiseScale den5
      (Parameters.init 3 16 8 constStats)).estimatesCounter (idx 64 p) : ℕ) :
      ℚ) ≠ 0) :
    BCDenoiser.denoiseMultiscale den5 16 constStats (idx 64 p) a = 1 / 2 := by
  show BCDenoiser.aggregateFinal (Parameters.init 3 16 8 constStats)
    (Parameters.init 3 16 8 constStats).resolution
    ((BCDenoiser.aggregate (Parameters.init 3 16 8 constStats).resolution
      (BCDenoiser.denoiseScale den5
        (Parameters.init 3 16 8 constStats))).denoisedValue)
    (fun _ => 0) (idx 64 p) a = 1 / 2
  rw [aggregateFinal_self (Parameters.init 3 16 8 constStats) _ _
    (idx 64 p) hidx]
  exact constScenario_aggregate p hidx a hJ hcne

theorem idx64_lt (p : Pixel) (hp1 : p.1 < 64) (hp2 : p.2 < 64) :
    idx 64 p < 64 * 64 := by
  have hmul : 64 * (p.2 + 1) ≤ 64 * 64 := Nat.mul_le_mul_left 64 (by omega)
  have hexp : 64 * (p.2 + 1) = 64 * p.2 + 64 := by ring
  unfold idx
  omega

/-- C5: in the end-to-end scenario (64x64 RGB, patchRadius 1,
searchWindowRadius 3, 8 histogram bins, constant mean `(1/2,1/2,1/2)`, zero
variance, 16 samples, zero threshold, one scale), `denoise` terminates with
the written-back denoised value equal to `1/2` per channel at every interior
pixel, and with a positive estimate count at every pixel. -/
theorem C5_constant_input_identity :
    (∀ p : Pixel, 1 ≤ p.1 → p.1 + 1 < 64 → 1 ≤ p.2 → p.2 + 1 < 64 →
      ∀ a : Fin 3,
        BCDenoiser.denoiseMultiscale den5 16 constStats (idx 64 p) a = 1 / 2) ∧
    (∀ p : Pixel, p.1 < 64 → p.2 < 64 →
      0 < (BCDenoiser.denoiseScale den5
        (Parameters.init 3 16 8 constStats)).estimatesCounter (idx 64 p)) := by
  constructor
  · intro p h1 h2 h3 h4 a
    have hp1 : p.1 < 64 := by omega
    have hp2 : p.2 < 64 := by omega
    exact constScenario_out p (idx64_lt p hp1 hp2) a constScenario_ConstJ
      (Nat.cast_ne_zero.2
        (Nat.one_le_iff_ne_zero.1 (constScenario_counter p hp1 hp2)))
  · intro p hp1 hp2
    exact constScenario_counter p hp1 hp2

/-- Witness for C5, at the interior pixel `(5, 5)`. -/
theorem C5_constant_input_identity_witness :
    (1 ≤ 5 ∧ 5 + 1 < 64) ∧
    (∀ a : Fin 3,
      BCDenoiser.denoiseMultiscale den5 16 constStats
        (idx 64 ((5, 5) : Pixel)) a = 1 / 2) ∧
    0 < (BCDenoiser.denoiseScale den5
      (Parameters.init 3 16 8 constStats)).estimatesCounter
        (idx 64 ((5, 5) : Pixel)) :=
  ⟨⟨by decide, by decide⟩,
   C5_constant_input_identity.1 (5, 5) (by decide) (by decide) (by decide)
     (by decide),
   C5_constant_input_identity.2 (5, 5) (by decide) (by decide)⟩

end Claims5

end Nanairo
